import Mathlib

/-!
Verification of the change-making strategies in `main.py` (repository
`Volbla/change-making`).  The Python functions `change_cached`,
`change_direct`, `change_simplex`, `change_simplex_np` and the numba kernel
`simplex_loop` are shallowly embedded below.  Python's unbounded integers are
modelled with `Nat` (all values handled by the claims are non-negative); the
numpy `int` rows of `simplex_loop` are modelled with `Int` (entries are
bounded by the `total` argument in every reachable state, so machine-word
overflow is unreachable on the domains quantified by the claims).  A raised
`ValueError` (Python's `min` on an empty sequence) and a `RecursionError`
are modelled as explicit outcomes of type `PyResult`; a Python function that
falls off its end returns `None`, modelled as `Option.none`.
-/

namespace ChangeMaking

/-- Outcome of a Python call: a returned value, a raised `ValueError`
(what `min` raises on an empty sequence), or a raised `RecursionError`. -/
inductive PyResult (α : Type) where
  | ok (a : α)
  | valueError
  | recursionError
deriving DecidableEq, Repr

/-- Python's `min(l, key=key)`: the first element attaining the minimal key
(`min` keeps the earlier element unless a strictly smaller key appears), and
`none` when the list is empty (Python raises `ValueError` there). -/
def pyMin (key : α → Nat) (l : List α) : Option α :=
  l.foldl (fun acc x =>
    match acc with
    | none => some x
    | some b => if key x < key b then some x else some b) none

/-- Monetary value of a composition: `sum(a*b for a, b in zip(c, d))`. -/
def dotL (c d : List Nat) : Nat := (List.zipWith (· * ·) c d).sum

/-- Python's `sorted` on a list of numbers. -/
def pySorted (l : List Nat) : List Nat := l.insertionSort (· ≤ ·)

/-- Collect the values produced by the generator feeding Python's `min`:
the first raised error aborts the whole collection, later values are kept
in order otherwise. -/
def collectResults : List (PyResult α) → PyResult (List α)
  | [] => .ok []
  | .ok v :: rs =>
    match collectResults rs with
    | .ok vs => .ok (v :: vs)
    | .valueError => .valueError
    | .recursionError => .recursionError
  | .valueError :: _ => .valueError
  | .recursionError :: _ => .recursionError

/-- The body of `change_cached`'s recursive `impl`, without the
`functools.cache` decorator, with explicit fuel standing for Python's
recursion-depth limit.  `impl(coins)` returns `coins` when its sum hits the
target, and otherwise takes `min(..., key=len)` over the recursive results
for every denomination that still fits; with no fitting denomination the
`min` of an empty generator raises `ValueError`. -/
def implP (d : List Nat) (target : Nat) : Nat → List Nat → PyResult (List Nat)
  | 0, _ => .recursionError
  | fuel + 1, coins =>
    if coins.sum = target then .ok coins
    else
      match collectResults ((d.filter (fun x => coins.sum + x ≤ target)).map
          (fun x => implP d target fuel (pySorted (coins ++ [x])))) with
      | .ok vs =>
        match pyMin List.length vs with
        | some m => .ok m
        | none => .valueError
      | .valueError => .valueError
      | .recursionError => .recursionError

/-- The memoization dictionary of `functools.cache`, keyed by the sorted
coin tuple. -/
abbrev Cache := List (List Nat × List Nat)

/-- Dictionary lookup of the `functools.cache` wrapper. -/
def lookupC (c : Cache) (k : List Nat) : Option (List Nat) :=
  (c.find? (fun p => p.1 == k)).map (·.2)

/-- Dictionary store of the `functools.cache` wrapper (performed on every
successful return, exceptions are not cached). -/
def insertC (c : Cache) (k v : List Nat) : Cache := (k, v) :: c

/-- The body of `change_cached`'s `impl` with the `functools.cache`
dictionary threaded explicitly: every call first consults the cache, and
every successful return is stored.  The recursive calls made while `min`
consumes its generator run left to right, threading the cache, and the
first raised error aborts the whole call. -/
def implC (d : List Nat) (target : Nat) :
    Nat → Cache → List Nat → PyResult (List Nat) × Cache
  | 0, c, _ => (.recursionError, c)
  | fuel + 1, c, coins =>
    match lookupC c coins with
    | some v => (.ok v, c)
    | none =>
      if coins.sum = target then (.ok coins, insertC c coins coins)
      else
        match (d.filter (fun x => coins.sum + x ≤ target)).foldl
            (fun (acc : PyResult (List (List Nat)) × Cache) x =>
              match acc with
              | (.ok vs, cc) =>
                match implC d target fuel cc (pySorted (coins ++ [x])) with
                | (.ok v, cc2) => (.ok (vs ++ [v]), cc2)
                | (.valueError, cc2) => (.valueError, cc2)
                | (.recursionError, cc2) => (.recursionError, cc2)
              | e => e) (.ok [], c) with
        | (.ok vs, cc) =>
          match pyMin List.length vs with
          | some m => (.ok m, insertC cc coins m)
          | none => (.valueError, cc)
        | (.valueError, cc) => (.valueError, cc)
        | (.recursionError, cc) => (.recursionError, cc)

/-- One top-level call of `change_cached`: the `@cache` decorator is applied
to the `impl` closure created inside `change_cached`, so the dictionary is
created empty here and dies with this call.  The result and the final
dictionary are returned.  Fuel `target + 1` stands for Python's recursion
limit: for positive denominations each level adds at least one to the
partial sum, which stays at most `target`, so the bound is never reached. -/
def change_cached_run (d : List Nat) (target : Nat) :
    PyResult (List Nat) × Cache :=
  implC d target (target + 1) [] []

/-- The Python function `change_cached`: the value returned to the caller
(the per-call cache is discarded). -/
def change_cached (d : List Nat) (target : Nat) : PyResult (List Nat) :=
  (change_cached_run d target).1

/-- Two top-level calls of `change_cached` in sequence, as the interpreter
executes them: the first call builds and discards its own cache (nothing of
it survives the call, since the decorated closure goes out of scope), then
the second call starts from a freshly created empty cache.  The value of the
second call is returned. -/
def change_cached_twice (d1 : List Nat) (t1 : Nat) (d2 : List Nat) (t2 : Nat) :
    PyResult (List Nat) :=
  let _discardedCacheOfFirstCall := change_cached_run d1 t1
  (implC d2 t2 (t2 + 1) [] []).1

/-- Weak compositions of `k` into `m` parts (each a length-`m` list of
non-negative integers summing to `k`), in the order the recursive generator
`simplexPoints` produces them: the first entry is the outermost loop, the
last entry is forced to the remaining sum.  `comps k 0` mirrors the
`dimensions = 0` behaviour of the source generator, which still yields the
one-element list `[k]`. -/
def comps : Nat → Nat → List (List Nat)
  | k, 0 => [[k]]
  | k, 1 => [[k]]
  | k, m + 2 =>
    (List.range (k + 1)).flatMap (fun x => (comps (k - x) (m + 1)).map (x :: ·))

/-- The inner `impl` of the generator `simplexPoints`: while fewer than
`dimensions - 1` entries are chosen, the next entry ranges over
`range(total - sum(seq) + 1)`; the final entry is forced to the remaining
sum.  (`List.range (total + 1 - seq.sum)` has exactly
`max 0 (total - sum + 1)` elements starting at `0`, as the Python `range`
does.) -/
def spAux (total dimensions : Nat) (seq : List Nat) : List (List Nat) :=
  if seq.length < dimensions - 1 then
    (List.range (total + 1 - seq.sum)).flatMap
      (fun x => spAux total dimensions (seq ++ [x]))
  else
    [seq ++ [total - seq.sum]]
termination_by dimensions - 1 - seq.length
decreasing_by
  simp only [List.length_append, List.length_cons, List.length_nil]
  omega

/-- The recursive generator `simplexPoints(total, dimensions)` used by
`change_simplex`, materialized as the list of yielded coordinates. -/
def simplexPoints (total dimensions : Nat) : List (List Nat) :=
  spAux total dimensions []

/-- The Python function `change_simplex`: for `coinCount` from `1` to
`target // d[0]`, scan the generated coordinates and return the first whose
monetary value equals the target; falling off the loop returns `None`. -/
def change_simplex (d : List Nat) (target : Nat) : Option (List Nat) :=
  (List.range' 1 (target / d.headI)).findSome?
    (fun coinCount =>
      (simplexPoints coinCount d.length).find? (fun c => dotL c d == target))

/-- The scan `for j in range(dimensions-1, -1, -1): if row[j] != 0: break`
for indices `bound, bound-1, ..., 1`; index `0` need not be tested because
the loop leaves `j = 0` whether it breaks there or is exhausted. -/
def findJAux (r : List Int) : Nat → Nat
  | 0 => 0
  | j + 1 => if r.getD (j + 1) 0 ≠ 0 then j + 1 else findJAux r j

/-- The index `j` of the rightmost nonzero entry computed by the backward
scan in `simplex_loop` (`0` when every entry is zero). -/
def findJ (dimensions : Nat) (r : List Int) : Nat :=
  findJAux r (dimensions - 1)

/-- One iteration of the row update in `simplex_loop`, computing row `i`
from row `i-1` (`prev`) and row `0` (`first`): find the rightmost nonzero
index `j`, increment the entry at `j-1` (Python index `-1`, the last entry,
when `j = 0`), then either decrement the last entry (when `j` is the last
index) or reset the tail from `j` to the first row's tail and subtract the
sum of the entries before `j` from the last entry. -/
def stepRow (dimensions : Nat) (first prev : List Int) : List Int :=
  let j := findJ dimensions prev
  let idx := if j = 0 then dimensions - 1 else j - 1
  let r1 := prev.set idx (prev.getD idx 0 + 1)
  if j = dimensions - 1 then r1.set j (r1.getD j 0 - 1)
  else
    let r2 := r1.take j ++ first.drop j
    r2.set (dimensions - 1) (r2.getD (dimensions - 1) 0 - (r2.take j).sum)

/-- Row `0` of the `coords` array: all zeros except the whole `total` in the
last slot (`coords[0, -1] = total`). -/
def firstRow (total : Int) (dimensions : Nat) : List Int :=
  (List.replicate dimensions 0).set (dimensions - 1) total

/-- The numba kernel `simplex_loop`: the `point_count` rows of the filled
`coords` array, row `0` being `firstRow` and each later row computed from
its predecessor by `stepRow`. -/
def simplex_loop (total : Int) (point_count dimensions : Nat) :
    List (List Int) :=
  (List.range point_count).map
    (fun i => (stepRow dimensions (firstRow total dimensions))^[i]
      (firstRow total dimensions))

/-- The `simplexPoints` helper of `change_simplex_np`: the rows produced by
`simplex_loop` with `point_count = C(total + dimensions - 1, dimensions - 1)`. -/
def simplexPointsNp (total dimensions : Nat) : List (List Int) :=
  simplex_loop (Int.ofNat total)
    (Nat.choose (total + dimensions - 1) (dimensions - 1)) dimensions

/-- The Python function `change_simplex_np`: like `change_simplex` but over
the rows produced by the numba kernel; when some rows match, the list of
matching rows is returned (the source passes it through `np.squeeze`, a
shape adjustment only); falling off the loop returns `None`. -/
def change_simplex_np (d : List Nat) (target : Nat) :
    Option (List (List Int)) :=
  (List.range' 1 (target / d.headI)).findSome?
    (fun coinCount =>
      let matched := (simplexPointsNp coinCount d.length).filter
        (fun row =>
          (List.zipWith (· * ·) row (d.map Int.ofNat)).sum == (target : Int))
      if matched.isEmpty then none else some matched)

/-- Axis size for one denomination in `change_direct`: the ratio to the
first later denomination it divides exactly, else `target // coin + 1`. -/
def axisBound (target coin : Nat) (later : List Nat) : Nat :=
  match later.find? (fun c => c % coin == 0) with
  | some c => c / coin
  | none => target / coin + 1

/-- The list `axes` of `change_direct`, one entry per denomination, each
computed from the denominations after it. -/
def axesFor (target : Nat) : List Nat → List Nat
  | [] => []
  | coin :: rest => axisBound target coin rest :: axesFor target rest

/-- Every index vector of the bounded grid in row-major order — the order in
which `np.nonzero` reports the cells of the `money` array. -/
def gridPoints : List Nat → List (List Nat)
  | [] => [[]]
  | a :: rest => (List.range a).flatMap (fun x => (gridPoints rest).map (x :: ·))

/-- The Python function `change_direct`: value every cell of the bounded
grid, keep the cells whose value equals the target, and take
`min(..., key=sum)`; with no matching cell Python's `min` raises
`ValueError`. -/
def change_direct (d : List Nat) (target : Nat) : PyResult (List Nat) :=
  match pyMin List.sum
      ((gridPoints (axesFor target d)).filter (fun v => dotL v d == target)) with
  | some ans => .ok ans
  | none => .valueError

/-- How often entry `i` changes between consecutive yielded coordinates of
an enumeration (used to compare which entries vary fastest). -/
def entryChanges (l : List (List Nat)) (i : Nat) : Nat :=
  (l.zip l.tail).countP (fun p => p.1.getD i 0 ≠ p.2.getD i 0)

/-- Nat-valued version of the backward scan of `simplex_loop` (used to state
the successor rule on the mathematical side before relating it to the `Int`
rows of the kernel). -/
def findJAuxN (r : List Nat) : Nat → Nat
  | 0 => 0
  | j + 1 => if r.getD (j + 1) 0 ≠ 0 then j + 1 else findJAuxN r j

/-- Rightmost nonzero index of a row of non-negative entries (`0` when the
row is all zero). -/
def findJN (r : List Nat) : Nat := findJAuxN r (r.length - 1)

/-- The lexicographic successor of a weak composition, written in closed
form: with `j` the rightmost nonzero index, keep the entries before `j - 1`,
increment the entry at `j - 1`, zero the entries from `j` up to the
second-to-last, and put the old entry at `j` minus one in the last slot.
This is the net effect of one `simplex_loop` iteration on a row. -/
def fmSucc (r : List Nat) : List Nat :=
  r.take (findJN r - 1) ++ [r.getD (findJN r - 1) 0 + 1]
    ++ List.replicate (r.length - 1 - findJN r) 0 ++ [r.getD (findJN r) 0 - 1]

/-- Count vector of a list of coin values over the denomination list. -/
def toCounts (d l : List Nat) : List Nat := d.map (fun x => l.count x)

/-- Expansion of a count vector into the list of individual coin values. -/
def expandCounts (d c : List Nat) : List Nat :=
  (List.zipWith (fun coin cnt => List.replicate cnt coin) d c).flatten

/-! ### Basic facts about the enumeration `comps` -/

lemma comps_zero (k : Nat) : comps k 0 = [[k]] := by rw [comps]

lemma comps_one (k : Nat) : comps k 1 = [[k]] := by rw [comps]

lemma comps_two (k m : Nat) :
    comps k (m + 2)
      = (List.range (k + 1)).flatMap
          (fun x => (comps (k - x) (m + 1)).map (x :: ·)) := by
  rw [comps]

lemma mem_comps {m : Nat} (hm : 1 ≤ m) {k : Nat} {c : List Nat} :
    c ∈ comps k m ↔ c.length = m ∧ c.sum = k := by
  induction m generalizing k c with
  | zero => omega
  | succ m ih =>
    match m with
    | 0 =>
      rw [comps_one]
      constructor
      · intro h
        simp only [List.mem_singleton] at h
        subst h
        simp
      · rintro ⟨hlen, hsum⟩
        obtain ⟨a, rfl⟩ := List.length_eq_one.mp hlen
        simp only [List.sum_cons, List.sum_nil, Nat.add_zero] at hsum
        simp [hsum]
    | m' + 1 =>
      rw [comps_two]
      simp only [List.mem_flatMap, List.mem_map, List.mem_range]
      constructor
      · rintro ⟨x, hx, u, hu, rfl⟩
        obtain ⟨hl, hs⟩ := (ih (by omega)).mp hu
        refine ⟨by simp [hl], ?_⟩
        simp only [List.sum_cons, hs]
        omega
      · intro ⟨hlen, hsum⟩
        match c with
        | [] => simp at hlen
        | x :: u =>
          simp only [List.sum_cons] at hsum
          refine ⟨x, by omega, u, (ih (by omega)).mpr ⟨by simpa using hlen, by omega⟩, rfl⟩

lemma comps_ne_nil (k m : Nat) : comps k m ≠ [] := by
  match m with
  | 0 => simp [comps_zero]
  | m + 1 =>
    have : List.replicate m 0 ++ [k] ∈ comps k (m + 1) :=
      (mem_comps (by omega)).mpr ⟨by simp, by simp⟩
    exact List.ne_nil_of_mem this

lemma spAux_eq (total dims : Nat) (seq : List Nat) (h : seq.sum ≤ total) :
    spAux total dims seq
      = (comps (total - seq.sum) (dims - seq.length)).map (seq ++ ·) := by
  rw [spAux]
  by_cases hlt : seq.length < dims - 1
  · rw [if_pos hlt]
    obtain ⟨m, hm⟩ : ∃ m, dims - seq.length = m + 2 := ⟨dims - seq.length - 2, by omega⟩
    rw [hm, comps_two, List.map_flatMap]
    have hrange : total + 1 - seq.sum = (total - seq.sum) + 1 := by omega
    rw [hrange]
    apply List.flatMap_congr  -- check name
    intro x hx
    simp only [List.mem_range] at hx
    have hsum : (seq ++ [x]).sum = seq.sum + x := by simp
    have hle : (seq ++ [x]).sum ≤ total := by omega
    rw [spAux_eq total dims (seq ++ [x]) hle]
    rw [List.map_map]
    have h1 : total - (seq ++ [x]).sum = total - seq.sum - x := by omega
    have h2 : dims - (seq ++ [x]).length = m + 1 := by
      simp only [List.length_append, List.length_cons, List.length_nil]
      omega
    rw [h1, h2]
    apply List.map_congr_left
    intro u _
    simp
  · rw [if_neg hlt]
    have hle : dims - seq.length ≤ 1 := by omega
    interval_cases hdm : dims - seq.length
    · rw [comps_zero]; rfl
    · rw [comps_one]; rfl
termination_by dims - 1 - seq.length
decreasing_by
  simp only [List.length_append, List.length_cons, List.length_nil]
  omega

lemma simplexPoints_eq_comps (k n : Nat) : simplexPoints k n = comps k n := by
  have := spAux_eq k n [] (by simp)
  simpa [simplexPoints] using this

lemma comps_head (k m : Nat) :
    (comps k (m + 1)).head? = some (List.replicate m 0 ++ [k]) := by
  induction m generalizing k with
  | zero => simp [comps_one]
  | succ m ih =>
    rw [comps_two, List.range_succ_eq_map]
    simp only [List.flatMap_cons]
    rw [List.head?_append_of_ne_nil]
    · rw [Nat.sub_zero, List.head?_map, ih]
      simp [List.replicate_succ]
    · simp [comps_ne_nil]

lemma comps_getLast (k m : Nat) :
    (comps k (m + 1)).getLast? = some (k :: List.replicate m 0) := by
  induction m generalizing k with
  | zero => simp [comps_one]
  | succ m ih =>
    rw [comps_two, List.range_succ, List.flatMap_append]
    rw [List.getLast?_append_of_ne_nil]
    · simp only [List.flatMap_cons, List.flatMap_nil, List.append_nil]
      rw [List.getLast?_map, Nat.sub_self, ih]
      simp [List.replicate_succ]
    · simp [comps_ne_nil]

lemma sum_choose_aux (m : Nat) :
    ∀ k, ((List.range (k + 1)).map (fun x => Nat.choose (k - x + m) m)).sum
      = Nat.choose (k + m + 1) (m + 1) := by
  intro k
  induction k with
  | zero => simp
  | succ k ih =>
    rw [List.range_succ_eq_map, List.map_cons, List.map_map, List.sum_cons]
    have h1 : (List.map ((fun x => Nat.choose (k + 1 - x + m) m) ∘ Nat.succ)
          (List.range (k + 1))).sum
        = ((List.range (k + 1)).map (fun x => Nat.choose (k - x + m) m)).sum := by
      refine congrArg List.sum (List.map_congr_left ?_)
      intro x _
      simp only [Function.comp_apply]
      congr 2
      omega
    rw [h1, ih]
    have h2 : k + 1 - 0 + m = k + m + 1 := by omega
    have h3 : k + 1 + m + 1 = k + m + 1 + 1 := by omega
    rw [h2, h3]
    conv_rhs => rw [Nat.choose_succ_succ']

lemma comps_length (k m : Nat) :
    (comps k (m + 1)).length = Nat.choose (k + m) m := by
  induction m generalizing k with
  | zero => simp [comps_one]
  | succ m ih =>
    rw [comps_two, List.length_flatMap]
    have h1 : (List.map (List.length ∘ fun x => (comps (k - x) (m + 1)).map (x :: ·))
        (List.range (k + 1))).sum
        = ((List.range (k + 1)).map (fun x => Nat.choose (k - x + m) m)).sum := by
      refine congrArg List.sum (List.map_congr_left ?_)
      intro x _
      simp [ih]
    rw [h1, sum_choose_aux]
    have h2 : k + (m + 1) = k + m + 1 := by omega
    rw [h2]

/-! ### The successor rule and the enumeration order -/

lemma getD_replicate_zero (n i : Nat) : (List.replicate n (0 : Nat)).getD i 0 = 0 := by
  induction n generalizing i with
  | zero => simp
  | succ n ih =>
    match i with
    | 0 => simp [List.replicate_succ]
    | i + 1 => simp only [List.replicate_succ, List.getD_cons_succ]; exact ih i

lemma findJAuxN_le (r : List Nat) (J : Nat) : findJAuxN r J ≤ J := by
  induction J with
  | zero => simp [findJAuxN]
  | succ J ih =>
    rw [findJAuxN]
    split
    · exact Nat.le_refl _
    · exact Nat.le_trans ih (by omega)

lemma findJAuxN_nonzero (r : List Nat) :
    ∀ J, 1 ≤ findJAuxN r J → r.getD (findJAuxN r J) 0 ≠ 0 := by
  intro J
  induction J with
  | zero => intro h; simp [findJAuxN] at h
  | succ J ih =>
    intro h
    rw [findJAuxN] at h ⊢
    by_cases hc : r.getD (J + 1) 0 ≠ 0
    · rw [if_pos hc]
      exact hc
    · rw [if_neg hc] at h ⊢
      exact ih h

lemma findJAuxN_zero_after (r : List Nat) :
    ∀ J i, findJAuxN r J < i → i ≤ J → r.getD i 0 = 0 := by
  intro J
  induction J with
  | zero => intro i h1 h2; omega
  | succ J ih =>
    intro i h1 h2
    rw [findJAuxN] at h1
    by_cases hc : r.getD (J + 1) 0 ≠ 0
    · rw [if_pos hc] at h1; omega
    · rw [if_neg hc] at h1
      push_neg at hc
      rcases Nat.eq_or_lt_of_le h2 with h | hlt
      · rw [h]; exact hc
      · exact ih i h1 (by omega)

lemma findJAuxN_eq (r : List Nat) {j : Nat} (hnz : r.getD j 0 ≠ 0) :
    ∀ J, j ≤ J → (∀ i, j < i → i ≤ J → r.getD i 0 = 0) → findJAuxN r J = j := by
  intro J
  induction J with
  | zero =>
    intro hj _
    rw [findJAuxN]
    omega
  | succ J ih =>
    intro hj hzero
    rw [findJAuxN]
    rcases Nat.eq_or_lt_of_le hj with h | hlt
    · subst h
      rw [if_pos hnz]
    · have hz : r.getD (J + 1) 0 = 0 := hzero (J + 1) hlt (Nat.le_refl _)
      rw [if_neg (show ¬r.getD (J + 1) 0 ≠ 0 from fun hcon => hcon hz)]
      exact ih (by omega) (fun i h1 h2 => hzero i h1 (by omega))

lemma findJN_lt_length {r : List Nat} (h : 1 ≤ findJN r) : findJN r < r.length := by
  have hle := findJAuxN_le r (r.length - 1)
  rcases Nat.eq_zero_or_pos r.length with h0 | hpos
  · rw [findJN, h0] at h
    simp [findJAuxN] at h
  · simp only [findJN] at h ⊢
    omega

lemma findJN_nonzero {r : List Nat} (h : 1 ≤ findJN r) : r.getD (findJN r) 0 ≠ 0 :=
  findJAuxN_nonzero r (r.length - 1) h

lemma findJN_zero_after {r : List Nat} :
    ∀ i, findJN r < i → i < r.length → r.getD i 0 = 0 := by
  intro i h1 h2
  exact findJAuxN_zero_after r (r.length - 1) i h1 (by omega)

lemma findJN_eq {r : List Nat} {j : Nat} (hj : j < r.length)
    (hnz : r.getD j 0 ≠ 0)
    (hzero : ∀ i, j < i → i < r.length → r.getD i 0 = 0) : findJN r = j :=
  findJAuxN_eq r hnz (r.length - 1) (by omega)
    (fun i h1 h2 => hzero i h1 (by omega))

lemma findJN_cons {x : Nat} {u : List Nat} (h : 1 ≤ findJN u) :
    findJN (x :: u) = findJN u + 1 := by
  have h1 : u.getD (findJN u) 0 ≠ 0 := findJN_nonzero h
  have h2 : findJN u < u.length := findJN_lt_length h
  apply findJN_eq
  · simp only [List.length_cons]
    omega
  · simpa using h1
  · intro i hi hlen
    obtain ⟨iPred, rfl⟩ : ∃ iPred, i = iPred + 1 := ⟨i - 1, by omega⟩
    rw [List.getD_cons_succ]
    refine findJN_zero_after iPred (by omega) ?_
    simp only [List.length_cons] at hlen
    omega

lemma fmSucc_cons {x : Nat} {u : List Nat} (h : 1 ≤ findJN u) :
    fmSucc (x :: u) = x :: fmSucc u := by
  obtain ⟨j, hj⟩ : ∃ j, findJN u = j + 1 := ⟨findJN u - 1, by omega⟩
  rw [fmSucc, fmSucc, findJN_cons h, hj]
  have e1 : j + 1 + 1 - 1 = j + 1 := by omega
  have e2 : j + 1 - 1 = j := by omega
  have e3 : (x :: u).length - 1 - (j + 1 + 1) = u.length - 1 - (j + 1) := by
    simp only [List.length_cons]
    omega
  rw [e1, e2, e3, List.take_succ_cons, List.getD_cons_succ, List.getD_cons_succ]
  simp

lemma lex_append_cons {p s t : List Nat} {a b : Nat} (h : a < b) :
    List.Lex (· < ·) (p ++ a :: s) (p ++ b :: t) := by
  induction p with
  | nil => exact List.Lex.rel h
  | cons y p ih => exact List.Lex.cons ih

lemma fmSucc_lex {a : List Nat} (h : 1 ≤ findJN a) : List.Lex (· < ·) a (fmSucc a) := by
  have hlen := findJN_lt_length h
  have hj1 : findJN a - 1 < a.length := by omega
  have hsplit : a = a.take (findJN a - 1)
      ++ a.getD (findJN a - 1) 0 :: a.drop (findJN a - 1 + 1) := by
    conv_lhs => rw [← List.take_append_drop (findJN a - 1) a]
    rw [List.drop_eq_getElem_cons hj1, List.getD_eq_getElem a 0 hj1]
  rw [fmSucc]
  conv_lhs => rw [hsplit]
  have hshape : a.take (findJN a - 1) ++ [a.getD (findJN a - 1) 0 + 1]
      ++ List.replicate (a.length - 1 - findJN a) 0 ++ [a.getD (findJN a) 0 - 1]
      = a.take (findJN a - 1) ++ (a.getD (findJN a - 1) 0 + 1)
        :: (List.replicate (a.length - 1 - findJN a) 0 ++ [a.getD (findJN a) 0 - 1]) := by
    simp
  rw [hshape]
  exact lex_append_cons (by omega)

lemma comps_chain (k m : Nat) :
    List.Chain' (fun a b => 1 ≤ findJN a ∧ b = fmSucc a) (comps k m) := by
  induction m generalizing k with
  | zero =>
    rw [comps_zero]
    exact List.chain'_singleton _
  | succ m ih =>
    match m with
    | 0 =>
      rw [comps_one]
      exact List.chain'_singleton _
    | m + 1 =>
      rw [comps_two, List.flatMap_def]
      have hnn : [] ∉ List.map (fun x => (comps (k - x) (m + 1)).map (x :: ·))
          (List.range (k + 1)) := by
        intro hmem
        simp only [List.mem_map] at hmem
        obtain ⟨x, _, hx⟩ := hmem
        exact comps_ne_nil (k - x) (m + 1) (List.map_eq_nil_iff.mp hx)
      rw [List.chain'_flatten hnn]
      constructor
      · intro l hl
        simp only [List.mem_map] at hl
        obtain ⟨x, _, rfl⟩ := hl
        rw [List.chain'_map]
        refine (ih (k - x)).imp ?_
        rintro u v ⟨h1, h2⟩
        refine ⟨by rw [findJN_cons h1]; omega, ?_⟩
        rw [fmSucc_cons h1, h2]
      · rw [List.chain'_map, List.chain'_range_succ]
        intro x hx
        intro a ha b hb
        rw [List.getLast?_map, comps_getLast] at ha
        rw [List.head?_map, comps_head] at hb
        simp only [Option.map_some', Option.mem_def, Option.some_inj] at ha hb
        subst ha
        subst hb
        have hlex : k - x ≠ 0 := by omega
        have hfind : findJN (x :: (k - x) :: List.replicate m 0) = 1 := by
          apply findJN_eq
          · simp only [List.length_cons]
            omega
          · simpa using hlex
          · intro i hi hilen
            obtain ⟨iPred, rfl⟩ : ∃ iPred, i = iPred + 2 := ⟨i - 2, by omega⟩
            simp only [List.getD_cons_succ]
            exact getD_replicate_zero m iPred
        constructor
        · omega
        · rw [fmSucc, hfind]
          simp only [List.length_cons, List.length_replicate]
          have e1 : m + 1 + 1 - 1 - 1 = m := by omega
          rw [e1]
          simp only [List.take_zero, List.getD_cons_succ]
          have e2 : (List.replicate m (0 : Nat)).getD 0 0 - 1 = 0 := by
            rw [getD_replicate_zero]
          simp only [List.getD_cons_zero]
          have e3 : k - x - 1 = k - (x + 1) := by omega
          simp [e3]

lemma comps_pairwise_lex (k m : Nat) :
    (comps k m).Pairwise (List.Lex (· < ·)) := by
  have hc2 : List.Chain' (List.Lex (· < ·)) (comps k m) :=
    (comps_chain k m).imp (fun a b hab => hab.2 ▸ fmSucc_lex hab.1)
  exact List.chain'_iff_pairwise.mp hc2

lemma lex_ne {a b : List Nat} (hab : List.Lex (· < ·) a b) : a ≠ b := by
  intro heq
  subst heq
  exact IsAsymm.asymm a a hab hab

lemma comps_nodup (k m : Nat) : (comps k m).Nodup :=
  (comps_pairwise_lex k m).imp lex_ne

/-! ### Entrywise toolkit for lists -/

lemma getD_set_ne {α : Type} {l : List α} {m i : Nat} {a d : α} (h : m ≠ i) :
    (l.set m a).getD i d = l.getD i d := by
  rw [List.getD_eq_getElem?_getD, List.getD_eq_getElem?_getD, List.getElem?_set,
    if_neg h]

lemma getD_set_self {α : Type} {l : List α} {i : Nat} {a d : α} (h : i < l.length) :
    (l.set i a).getD i d = a := by
  rw [List.getD_eq_getElem?_getD, List.getElem?_set, if_pos rfl, if_pos h]
  rfl

lemma getD_take_lt {α : Type} {l : List α} {t i : Nat} {d : α} (h : i < t) :
    (l.take t).getD i d = l.getD i d := by
  rw [List.getD_eq_getElem?_getD, List.getD_eq_getElem?_getD,
    List.getElem?_take_of_lt h]

lemma getD_drop {α : Type} {l : List α} {t i : Nat} {d : α} :
    (l.drop t).getD i d = l.getD (t + i) d := by
  rw [List.getD_eq_getElem?_getD, List.getD_eq_getElem?_getD, List.getElem?_drop]

lemma getD_append_lt {α : Type} {l1 l2 : List α} {i : Nat} {d : α}
    (h : i < l1.length) : (l1 ++ l2).getD i d = l1.getD i d :=
  List.getD_append _ _ _ _ h

lemma getD_append_ge {α : Type} {l1 l2 : List α} {i : Nat} {d : α}
    (h : l1.length ≤ i) : (l1 ++ l2).getD i d = l2.getD (i - l1.length) d :=
  List.getD_append_right _ _ _ _ h

lemma getD_replicate_self {α : Type} (a : α) (n i : Nat) :
    (List.replicate n a).getD i a = a := by
  rw [List.getD_eq_getElem?_getD, List.getElem?_getD_replicate_default_eq]

lemma list_ext_getD {α : Type} {l1 l2 : List α} (d : α)
    (hlen : l1.length = l2.length)
    (h : ∀ i, i < l1.length → l1.getD i d = l2.getD i d) : l1 = l2 := by
  apply List.ext_getElem hlen
  intro i h1 h2
  have := h i h1
  rwa [List.getD_eq_getElem _ _ h1, List.getD_eq_getElem _ _ h2] at this

lemma castRow_getD (r : List Nat) (i : Nat) :
    (r.map Int.ofNat).getD i 0 = Int.ofNat (r.getD i 0) := by
  by_cases h : i < r.length
  · rw [List.getD_eq_getElem _ _ (by simpa using h), List.getD_eq_getElem _ _ h,
      List.getElem_map]
  · rw [List.getD_eq_default _ _ (by simpa using Nat.le_of_not_lt h),
      List.getD_eq_default _ _ (Nat.le_of_not_lt h)]
    rfl

lemma cast_sum (l : List Nat) : (l.map Int.ofNat).sum = Int.ofNat l.sum := by
  induction l with
  | nil => rfl
  | cons x l ih =>
    simp only [List.map_cons, List.sum_cons, ih]
    rfl

/-! ### The Int rows of simplex_loop against the Nat successor rule -/

lemma findJAux_cast (r : List Nat) (J : Nat) :
    findJAux (r.map Int.ofNat) J = findJAuxN r J := by
  induction J with
  | zero => rfl
  | succ J ih =>
    rw [findJAux, findJAuxN, castRow_getD, ih]
    by_cases hc : r.getD (J + 1) 0 = 0
    · rw [if_neg (by simp only [Int.ofNat_eq_natCast]; omega),
        if_neg (by omega)]
    · rw [if_pos (by simp only [Int.ofNat_eq_natCast]; omega), if_pos hc]

lemma findJ_cast {n : Nat} (r : List Nat) (hlen : r.length = n) :
    findJ n (r.map Int.ofNat) = findJN r := by
  rw [findJ, findJN, findJAux_cast, hlen]

lemma firstRow_length (k : Int) (n : Nat) : (firstRow k n).length = n := by
  simp [firstRow]

lemma firstRow_getD_last {n : Nat} (hn : 1 ≤ n) (k : Int) :
    (firstRow k n).getD (n - 1) 0 = k := by
  rw [firstRow]
  exact getD_set_self (by simp; omega)

lemma firstRow_getD_ne {n i : Nat} (h : i ≠ n - 1) (k : Int) :
    (firstRow k n).getD i 0 = 0 := by
  rw [firstRow, getD_set_ne (fun hcon => h hcon.symm), getD_replicate_self]

lemma fmSucc_length {r : List Nat} (h : 1 ≤ findJN r) :
    (fmSucc r).length = r.length := by
  have h1 := findJN_lt_length h
  rw [fmSucc]
  simp only [List.length_append, List.length_cons, List.length_nil,
    List.length_replicate, List.length_take]
  omega

lemma fmSucc_getD {r : List Nat} (h : 1 ≤ findJN r) {i : Nat} (hi : i < r.length) :
    (fmSucc r).getD i 0 =
      if i = r.length - 1 then r.getD (findJN r) 0 - 1
      else if i < findJN r - 1 then r.getD i 0
      else if i = findJN r - 1 then r.getD i 0 + 1
      else 0 := by
  have hjlt := findJN_lt_length h
  have hlenA : (r.take (findJN r - 1)).length = findJN r - 1 := by
    simp only [List.length_take]
    omega
  have hlenAB : (r.take (findJN r - 1) ++ [r.getD (findJN r - 1) 0 + 1]).length
      = findJN r := by
    simp only [List.length_append, List.length_cons, List.length_nil, hlenA]
    omega
  have hlenABC : ((r.take (findJN r - 1) ++ [r.getD (findJN r - 1) 0 + 1])
      ++ List.replicate (r.length - 1 - findJN r) 0).length = r.length - 1 := by
    simp only [List.length_append, List.length_replicate, hlenAB]
    omega
  rw [fmSucc]
  by_cases hlast : i = r.length - 1
  · rw [if_pos hlast]
    rw [getD_append_ge (by omega), hlenABC, hlast]
    simp
  · rw [if_neg hlast]
    rw [getD_append_lt (by omega)]
    by_cases h1 : i < findJN r
    · rw [getD_append_lt (by omega)]
      by_cases h2 : i < findJN r - 1
      · rw [if_pos h2, getD_append_lt (by omega), getD_take_lt h2]
      · have h3 : i = findJN r - 1 := by omega
        rw [if_neg h2, if_pos h3, getD_append_ge (by omega), hlenA, h3]
        simp
    · rw [if_neg (by omega), if_neg (by omega)]
      rw [getD_append_ge (by omega), hlenAB, getD_replicate_self]

lemma stepRow_cast {n k : Nat} {r : List Nat}
    (hlen : r.length = n) (hsum : r.sum = k) (hjpos : 1 ≤ findJN r) :
    stepRow n (firstRow (Int.ofNat k) n) (r.map Int.ofNat)
      = (fmSucc r).map Int.ofNat := by
  have hjlt : findJN r < n := hlen ▸ findJN_lt_length hjpos
  have hn : 1 ≤ n := by omega
  have hnz : 1 ≤ r.getD (findJN r) 0 :=
    Nat.one_le_iff_ne_zero.mpr (findJN_nonzero hjpos)
  have hzero : ∀ i, findJN r < i → i < n → r.getD i 0 = 0 := by
    intro i h1 h2
    exact findJN_zero_after i h1 (by omega)
  have hdropsum : (r.drop (findJN r + 1)).sum = 0 := by
    apply List.sum_eq_zero
    intro x hx
    obtain ⟨idx, hidx, rfl⟩ := List.mem_iff_getElem.mp hx
    rw [List.getElem_drop]
    have hlt : findJN r + 1 + idx < r.length := by
      simp only [List.length_drop] at hidx
      omega
    rw [← List.getD_eq_getElem r 0 hlt]
    exact hzero _ (by omega) (by omega)
  have htakesum : (r.take (findJN r)).sum + r.getD (findJN r) 0 = k := by
    have hdrop : r.drop (findJN r)
        = r.getD (findJN r) 0 :: r.drop (findJN r + 1) := by
      rw [List.drop_eq_getElem_cons (show findJN r < r.length by omega),
        List.getD_eq_getElem r 0 (by omega)]
    calc (r.take (findJN r)).sum + r.getD (findJN r) 0
        = (r.take (findJN r)).sum
          + (r.getD (findJN r) 0 :: r.drop (findJN r + 1)).sum := by
          simp [hdropsum]
      _ = (r.take (findJN r) ++ r.drop (findJN r)).sum := by
          rw [List.sum_append, hdrop]
      _ = k := by rw [List.take_append_drop, hsum]
  have htake1 : r.take (findJN r)
      = r.take (findJN r - 1) ++ [r.getD (findJN r - 1) 0] := by
    obtain ⟨jj, hjj⟩ : ∃ jj, findJN r = jj + 1 := ⟨findJN r - 1, by omega⟩
    rw [hjj]
    simp only [Nat.add_sub_cancel]
    rw [List.take_succ, List.getElem?_eq_getElem (show jj < r.length by omega),
      ← List.getD_eq_getElem r 0 (by omega)]
    rfl
  have hS : (r.take (findJN r - 1)).sum + r.getD (findJN r - 1) 0
      + r.getD (findJN r) 0 = k := by
    rw [htake1, List.sum_append] at htakesum
    simp only [List.sum_cons, List.sum_nil] at htakesum
    omega
  have hr1 : (r.map Int.ofNat).set (findJN r - 1)
      ((r.map Int.ofNat).getD (findJN r - 1) 0 + 1)
      = (r.set (findJN r - 1) (r.getD (findJN r - 1) 0 + 1)).map Int.ofNat := by
    rw [castRow_getD, List.map_set]
    rfl
  have hrN1len : (r.set (findJN r - 1) (r.getD (findJN r - 1) 0 + 1)).length = n := by
    simp [hlen]
  have hrN1getD : ∀ i, findJN r - 1 ≠ i →
      (r.set (findJN r - 1) (r.getD (findJN r - 1) 0 + 1)).getD i 0 = r.getD i 0 :=
    fun i hi => getD_set_ne hi
  have hrN1getDj : (r.set (findJN r - 1) (r.getD (findJN r - 1) 0 + 1)).getD
      (findJN r - 1) 0 = r.getD (findJN r - 1) 0 + 1 :=
    getD_set_self (by omega)
  simp only [stepRow]
  rw [findJ_cast r hlen]
  rw [if_neg (show ¬findJN r = 0 by omega)]
  rw [hr1]
  by_cases hbr : findJN r = n - 1
  · rw [if_pos hbr]
    apply list_ext_getD (0 : Int)
    · simp only [List.length_set, List.length_map, hrN1len,
        fmSucc_length hjpos, hlen]
    · intro i hilt
      have hi : i < n := by
        simpa only [List.length_set, List.length_map, hrN1len] using hilt
      have hrhs : ((fmSucc r).map Int.ofNat).getD i 0
          = Int.ofNat ((fmSucc r).getD i 0) := castRow_getD _ _
      rw [hrhs, fmSucc_getD hjpos (by omega)]
      have hval : ((r.set (findJN r - 1) (r.getD (findJN r - 1) 0 + 1)).map
          Int.ofNat).getD (findJN r) 0 = Int.ofNat (r.getD (findJN r) 0) := by
        rw [castRow_getD, hrN1getD _ (by omega)]
      rw [hval]
      by_cases hcase : i = findJN r
      · rw [hcase, getD_set_self (by rw [List.length_map, hrN1len]; omega)]
        rw [if_pos (by omega)]
        simp only [Int.ofNat_eq_natCast]
        omega
      · rw [getD_set_ne (show findJN r ≠ i by omega), castRow_getD]
        rw [if_neg (by omega)]
        by_cases h2 : i < findJN r - 1
        · rw [if_pos h2, hrN1getD i (by omega)]
        · have h3 : i = findJN r - 1 := by omega
          rw [if_neg h2, if_pos h3, h3, hrN1getDj]
  · rw [if_neg hbr]
    have hlenTake : (((r.set (findJN r - 1) (r.getD (findJN r - 1) 0 + 1)).map
        Int.ofNat).take (findJN r)).length = findJN r := by
      simp only [List.length_take, List.length_map, hrN1len]
      omega
    have htakeApp : ((((r.set (findJN r - 1) (r.getD (findJN r - 1) 0 + 1)).map
          Int.ofNat).take (findJN r)
        ++ (firstRow (Int.ofNat k) n).drop (findJN r))).take (findJN r)
        = ((r.set (findJN r - 1) (r.getD (findJN r - 1) 0 + 1)).map
          Int.ofNat).take (findJN r) :=
      List.take_left' hlenTake
    have hTakeNat : (r.set (findJN r - 1) (r.getD (findJN r - 1) 0 + 1)).take
        (findJN r) = r.take (findJN r - 1) ++ [r.getD (findJN r - 1) 0 + 1] := by
      rw [List.set_eq_take_append_cons_drop, if_pos (by omega)]
      have hjj : findJN r - 1 + 1 = findJN r := by omega
      rw [hjj, List.take_append_eq_append_take,
        List.take_of_length_le (by simp only [List.length_take]; omega)]
      have hlentk : (r.take (findJN r - 1)).length = findJN r - 1 := by
        simp only [List.length_take]
        omega
      rw [hlentk]
      have h1 : findJN r - (findJN r - 1) = 1 := by omega
      rw [h1]
      rfl
    have hsumTake : (((r.set (findJN r - 1) (r.getD (findJN r - 1) 0 + 1)).map
        Int.ofNat).take (findJN r)).sum
        = Int.ofNat ((r.take (findJN r - 1)).sum + (r.getD (findJN r - 1) 0 + 1)) := by
      rw [← List.map_take, hTakeNat, cast_sum]
      congr 1
      rw [List.sum_append]
      simp
    have hgetLast : ((((r.set (findJN r - 1) (r.getD (findJN r - 1) 0 + 1)).map
          Int.ofNat).take (findJN r)
        ++ (firstRow (Int.ofNat k) n).drop (findJN r))).getD (n - 1) 0
        = Int.ofNat k := by
      rw [getD_append_ge (by rw [hlenTake]; omega), hlenTake, getD_drop]
      have h1 : findJN r + (n - 1 - findJN r) = n - 1 := by omega
      rw [h1, firstRow_getD_last hn]
    apply list_ext_getD (0 : Int)
    · simp only [List.length_set, List.length_append, hlenTake, List.length_drop,
        firstRow_length, fmSucc_length hjpos, List.length_map, hlen]
      omega
    · intro i hilt
      have hi : i < n := by
        simp only [List.length_set, List.length_append, hlenTake, List.length_drop,
          firstRow_length] at hilt
        omega
      have hrhs : ((fmSucc r).map Int.ofNat).getD i 0
          = Int.ofNat ((fmSucc r).getD i 0) := castRow_getD _ _
      rw [hrhs, fmSucc_getD hjpos (by omega)]
      by_cases hcase : i = n - 1
      · rw [hcase, getD_set_self (by
          simp only [List.length_append, hlenTake, List.length_drop, firstRow_length]
          omega)]
        rw [htakeApp, hgetLast, hsumTake]
        rw [if_pos (by omega)]
        simp only [Int.ofNat_eq_natCast]
        omega
      · rw [getD_set_ne (show n - 1 ≠ i by omega)]
        rw [if_neg (by omega)]
        by_cases h2 : i < findJN r
        · rw [getD_append_lt (by rw [hlenTake]; omega), getD_take_lt h2,
            castRow_getD]
          by_cases h3 : i < findJN r - 1
          · rw [if_pos h3, hrN1getD i (by omega)]
          · have h4 : i = findJN r - 1 := by omega
            rw [if_neg h3, if_pos h4, h4, hrN1getDj]
        · rw [getD_append_ge (by rw [hlenTake]; omega), hlenTake, getD_drop]
          have hji : findJN r + (i - findJN r) = i := by omega
          rw [hji, firstRow_getD_ne (by omega)]
          rw [if_neg (by omega), if_neg (by omega)]
          rfl

lemma eq_range_map_iterate {α : Type} (f : α → α) :
    ∀ (l : List α) (h0 : α), l.Chain' (fun a b => b = f a) → l.head? = some h0 →
      l = (List.range l.length).map (fun i => f^[i] h0) := by
  intro l
  induction l with
  | nil =>
    intro h0 _ hh
    simp at hh
  | cons a l ih =>
    intro h0 hch hh
    simp only [List.head?_cons, Option.some_inj] at hh
    subst hh
    match l, hch with
    | [], _ => simp
    | b :: l2, hch =>
      rw [List.chain'_cons] at hch
      have hb := ih b hch.2 (by simp)
      rw [List.length_cons, List.range_succ_eq_map, List.map_cons, List.map_map]
      congr 1
      conv_lhs => rw [hb]
      apply List.map_congr_left
      intro i _
      simp only [Function.comp_apply]
      rw [Function.iterate_succ_apply, ← hch.1]

lemma chain'_imp_mem {α : Type} {R S : α → α → Prop} {P : α → Prop} :
    ∀ {l : List α}, (∀ a ∈ l, P a) → l.Chain' R →
      (∀ a b, P a → P b → R a b → S a b) → l.Chain' S := by
  intro l
  induction l with
  | nil =>
    intro _ _ _
    exact List.chain'_nil
  | cons a l ih =>
    intro hP hch himp
    match l with
    | [] => exact List.chain'_singleton a
    | b :: l2 =>
      rw [List.chain'_cons] at hch ⊢
      refine ⟨himp a b (hP a (by simp)) (hP b (by simp)) hch.1, ?_⟩
      exact ih (fun x hx => hP x (List.mem_cons_of_mem a hx)) hch.2 himp

lemma castRow_first {n k : Nat} (hn : 1 ≤ n) :
    (List.replicate (n - 1) (0 : Nat) ++ [k]).map Int.ofNat
      = firstRow (Int.ofNat k) n := by
  rw [firstRow, List.set_eq_take_append_cons_drop,
    if_pos (by simp only [List.length_replicate]; omega)]
  rw [List.map_append, List.map_replicate]
  have hd : (List.replicate n (0 : Int)).drop (n - 1 + 1) = [] := by
    apply List.drop_eq_nil_of_le
    simp only [List.length_replicate]
    omega
  rw [hd]
  have ht : (List.replicate n (0 : Int)).take (n - 1)
      = List.replicate (n - 1) (0 : Int) := by
    rw [List.take_replicate]
    congr 1
    omega
  rw [ht]
  rfl

lemma simplex_loop_eq_comps {total n : Nat} (hn : 1 ≤ n) :
    simplex_loop (Int.ofNat total) (Nat.choose (total + n - 1) (n - 1)) n
      = (comps total n).map (fun row => row.map Int.ofNat) := by
  obtain ⟨m, rfl⟩ : ∃ m, n = m + 1 := ⟨n - 1, by omega⟩
  have hlen : ((comps total (m + 1)).map (fun row => row.map Int.ofNat)).length
      = Nat.choose (total + (m + 1) - 1) ((m + 1) - 1) := by
    rw [List.length_map, comps_length]
    congr 1 <;> omega
  have hmem : ∀ a ∈ comps total (m + 1), a.length = m + 1 ∧ a.sum = total :=
    fun a ha => (mem_comps (by omega)).mp ha
  have hchain : ((comps total (m + 1)).map (fun row => row.map Int.ofNat)).Chain'
      (fun a b => b = stepRow (m + 1) (firstRow (Int.ofNat total) (m + 1)) a) := by
    rw [List.chain'_map]
    refine chain'_imp_mem hmem (comps_chain total (m + 1)) ?_
    rintro a b ⟨ha1, ha2⟩ _ ⟨hj, hsucc⟩
    rw [hsucc, stepRow_cast ha1 ha2 hj]
  have hhead : ((comps total (m + 1)).map (fun row => row.map Int.ofNat)).head?
      = some (firstRow (Int.ofNat total) (m + 1)) := by
    rw [List.head?_map, comps_head]
    rw [Option.map_some']
    congr 1
    have := castRow_first (n := m + 1) (k := total) (by omega)
    simpa using this
  have hiter := eq_range_map_iterate
    (stepRow (m + 1) (firstRow (Int.ofNat total) (m + 1)))
    ((comps total (m + 1)).map (fun row => row.map Int.ofNat))
    (firstRow (Int.ofNat total) (m + 1)) hchain hhead
  rw [simplex_loop, ← hlen]
  exact hiter.symm

/-! ### Facts about pyMin -/

lemma pyMin_foldl_spec {α : Type} (key : α → Nat) :
    ∀ (l : List α) (b m : α),
      l.foldl (fun acc x =>
        match acc with
        | none => some x
        | some b => if key x < key b then some x else some b) (some b) = some m →
      (m = b ∧ ∀ x ∈ l, key b ≤ key x) ∨
      (∃ l1 l2, l = l1 ++ m :: l2 ∧ key m < key b ∧
        (∀ x ∈ l1, key m < key x) ∧ (∀ x ∈ l2, key m ≤ key x)) := by
  intro l
  induction l with
  | nil =>
    intro b m h
    simp only [List.foldl_nil, Option.some_inj] at h
    exact Or.inl ⟨h.symm, by simp⟩
  | cons x xs ih =>
    intro b m h
    rw [List.foldl_cons] at h
    replace h : xs.foldl (fun acc x =>
        match acc with
        | none => some x
        | some b => if key x < key b then some x else some b)
        (if key x < key b then some x else some b) = some m := h
    by_cases hx : key x < key b
    · rw [if_pos hx] at h
      rcases ih x m h with ⟨rfl, hall⟩ | ⟨l1, l2, rfl, hlt, h1, h2⟩
      · exact Or.inr ⟨[], xs, rfl, hx, by simp, hall⟩
      · exact Or.inr ⟨x :: l1, l2, rfl, Nat.lt_trans hlt hx, by
          intro y hy
          rcases List.mem_cons.mp hy with rfl | hy2
          · exact hlt
          · exact h1 y hy2, h2⟩
    · rw [if_neg hx] at h
      rcases ih b m h with ⟨rfl, hall⟩ | ⟨l1, l2, rfl, hlt, h1, h2⟩
      · refine Or.inl ⟨rfl, ?_⟩
        intro y hy
        rcases List.mem_cons.mp hy with rfl | hy2
        · omega
        · exact hall y hy2
      · exact Or.inr ⟨x :: l1, l2, rfl, hlt, by
          intro y hy
          rcases List.mem_cons.mp hy with rfl | hy2
          · omega
          · exact h1 y hy2, h2⟩

lemma pyMin_foldl_isSome {α : Type} (key : α → Nat) :
    ∀ (l : List α) (b : α), ∃ m,
      l.foldl (fun acc x =>
        match acc with
        | none => some x
        | some b => if key x < key b then some x else some b) (some b) = some m := by
  intro l
  induction l with
  | nil => intro b; exact ⟨b, rfl⟩
  | cons x xs ih =>
    intro b
    rw [List.foldl_cons]
    show ∃ m, xs.foldl (fun acc x =>
        match acc with
        | none => some x
        | some b => if key x < key b then some x else some b)
        (if key x < key b then some x else some b) = some m
    by_cases hx : key x < key b
    · rw [if_pos hx]; exact ih x
    · rw [if_neg hx]; exact ih b

lemma pyMin_spec {α : Type} {key : α → Nat} {l : List α} {m : α}
    (h : pyMin key l = some m) :
    ∃ l1 l2, l = l1 ++ m :: l2 ∧ (∀ x ∈ l1, key m < key x)
      ∧ (∀ x ∈ l2, key m ≤ key x) := by
  match l with
  | [] => simp [pyMin] at h
  | x :: xs =>
    rw [pyMin, List.foldl_cons] at h
    replace h : xs.foldl (fun acc x =>
        match acc with
        | none => some x
        | some b => if key x < key b then some x else some b)
        (some x) = some m := h
    rcases pyMin_foldl_spec key xs x m h with ⟨rfl, hall⟩ | ⟨l1, l2, rfl, hlt, h1, h2⟩
    · exact ⟨[], xs, rfl, by simp, hall⟩
    · refine ⟨x :: l1, l2, rfl, ?_, h2⟩
      intro y hy
      rcases List.mem_cons.mp hy with rfl | hy2
      · exact hlt
      · exact h1 y hy2

lemma pyMin_mem {α : Type} {key : α → Nat} {l : List α} {m : α}
    (h : pyMin key l = some m) : m ∈ l := by
  obtain ⟨l1, l2, rfl, _, _⟩ := pyMin_spec h
  simp

lemma pyMin_le {α : Type} {key : α → Nat} {l : List α} {m : α}
    (h : pyMin key l = some m) : ∀ x ∈ l, key m ≤ key x := by
  obtain ⟨l1, l2, rfl, h1, h2⟩ := pyMin_spec h
  intro x hx
  rcases List.mem_append.mp hx with hx1 | hx2
  · exact Nat.le_of_lt (h1 x hx1)
  · rcases List.mem_cons.mp hx2 with rfl | hx3
    · exact Nat.le_refl _
    · exact h2 x hx3

lemma pyMin_isSome {α : Type} (key : α → Nat) {l : List α} (h : l ≠ []) :
    ∃ m, pyMin key l = some m := by
  match l with
  | [] => exact absurd rfl h
  | x :: xs =>
    rw [pyMin, List.foldl_cons]
    exact pyMin_foldl_isSome key xs x

/-! ### findSome? over a split list -/

lemma findSome?_split {α β : Type} (f : α → Option β) {l1 : List α} {a : α}
    (l2 : List α) (h1 : ∀ x ∈ l1, f x = none) {r : β} (h2 : f a = some r) :
    (l1 ++ a :: l2).findSome? f = some r := by
  induction l1 with
  | nil =>
    rw [List.nil_append, List.findSome?_cons, h2]
  | cons x l1 ih =>
    rw [List.cons_append, List.findSome?_cons, h1 x (by simp)]
    exact ih (fun y hy => h1 y (List.mem_cons_of_mem x hy))

/-! ### Existence of sum-minimal elements -/

lemma exists_min_sum {P : List Nat → Prop} :
    ∀ (n : Nat) (c : List Nat), P c → c.sum = n →
      ∃ c0, P c0 ∧ ∀ c1, P c1 → c0.sum ≤ c1.sum := by
  intro n
  induction n using Nat.strong_induction_on with
  | _ n ih =>
    intro c hc hcs
    by_cases hmin : ∀ c1, P c1 → c.sum ≤ c1.sum
    · exact ⟨c, hc, hmin⟩
    · push_neg at hmin
      obtain ⟨c1, hc1, hlt⟩ := hmin
      exact ih c1.sum (by omega) c1 hc1 rfl

/-! ### Arithmetic facts about dotL -/

lemma dotL_nil (d : List Nat) : dotL [] d = 0 := rfl

lemma dotL_cons (x : Nat) (c : List Nat) (y : Nat) (d : List Nat) :
    dotL (x :: c) (y :: d) = x * y + dotL c d := by
  simp [dotL]

lemma headI_le_of_sorted {d : List Nat} (hsorted : d.Pairwise (· < ·)) :
    ∀ y ∈ d, d.headI ≤ y := by
  match d with
  | [] => intro y hy; simp at hy
  | h :: rest =>
    intro y hy
    rcases List.mem_cons.mp hy with rfl | hy2
    · exact Nat.le_refl _
    · exact Nat.le_of_lt ((List.pairwise_cons.mp hsorted).1 y hy2)

lemma dotL_lower {m : Nat} :
    ∀ (c d : List Nat), (∀ y ∈ d, m ≤ y) → c.length ≤ d.length →
      m * c.sum ≤ dotL c d := by
  intro c
  induction c with
  | nil => intro d _ _; simp [dotL]
  | cons x c ih =>
    intro d hmem hlen
    match d with
    | [] => simp at hlen
    | y :: d2 =>
      rw [dotL_cons]
      have h1 : m * c.sum ≤ dotL c d2 :=
        ih d2 (fun z hz => hmem z (List.mem_cons_of_mem y hz)) (by simpa using hlen)
      have h2 : m * x ≤ x * y := by
        have := hmem y (by simp)
        calc m * x ≤ y * x := Nat.mul_le_mul_right x this
          _ = x * y := Nat.mul_comm y x
      calc m * (x :: c).sum = m * x + m * c.sum := by
            simp [List.sum_cons, Nat.mul_add]
        _ ≤ x * y + dotL c d2 := Nat.add_le_add h2 h1


lemma dotL_zero_of_sum_zero {c d : List Nat} (h : c.sum = 0) : dotL c d = 0 := by
  induction c generalizing d with
  | nil => rfl
  | cons x c ih =>
    match d with
    | [] => rfl
    | y :: d2 =>
      simp only [List.sum_cons] at h
      rw [dotL_cons, ih (by omega)]
      have hx : x = 0 := by omega
      simp [hx]

lemma feasible_sum_le {d : List Nat} {target : Nat} {c : List Nat}
    (hsorted : d.Pairwise (· < ·)) (hpos : ∀ x ∈ d, 1 ≤ x) (hne : d ≠ [])
    (hlen : c.length = d.length) (hdot : dotL c d = target) :
    c.sum ≤ target / d.headI := by
  have hhead : 1 ≤ d.headI := by
    match d with
    | [] => exact absurd rfl hne
    | h :: rest => exact hpos h (by simp)
  have hlow : d.headI * c.sum ≤ target :=
    hdot ▸ dotL_lower c d (headI_le_of_sorted hsorted) (by omega)
  rw [Nat.le_div_iff_mul_le (by omega)]
  calc c.sum * d.headI = d.headI * c.sum := Nat.mul_comm _ _
    _ ≤ target := hlow

/-! ### Correctness of change_simplex -/

lemma change_simplex_spec (d : List Nat) (target : Nat)
    (hne : d ≠ []) (hsorted : d.Pairwise (· < ·)) (hpos : ∀ x ∈ d, 1 ≤ x)
    (htarget : 1 ≤ target)
    (hfeas : ∃ c, c.length = d.length ∧ dotL c d = target) :
    ∃ ans, change_simplex d target = some ans ∧ ans.length = d.length ∧
      dotL ans d = target ∧
      ∀ c, c.length = d.length → dotL c d = target → ans.sum ≤ c.sum := by
  have hn1 : 1 ≤ d.length := by
    match d with
    | [] => exact absurd rfl hne
    | h :: rest => simp
  obtain ⟨c, hc⟩ := hfeas
  obtain ⟨c0, ⟨hc0len, hc0dot⟩, hc0min⟩ :=
    exists_min_sum (P := fun c => c.length = d.length ∧ dotL c d = target)
      c.sum c hc rfl
  have hk1 : 1 ≤ c0.sum := by
    by_contra hcon
    have hz : c0.sum = 0 := by omega
    have := dotL_zero_of_sum_zero (d := d) hz
    omega
  have hkM : c0.sum ≤ target / d.headI :=
    feasible_sum_le hsorted hpos hne hc0len hc0dot
  have h1 : ((target / d.headI - c0.sum) + 1) + (c0.sum - 1)
      = target / d.headI := by
    omega
  have h2 : 1 + (c0.sum - 1) = c0.sum := by omega
  have hsplit := List.range'_append_1 1 (c0.sum - 1)
    ((target / d.headI - c0.sum) + 1)
  rw [h2, List.range'_succ, h1] at hsplit
  rw [change_simplex, ← hsplit]
  have hfone : ∀ coinCount ∈ List.range' 1 (c0.sum - 1),
      (simplexPoints coinCount d.length).find?
        (fun cc => dotL cc d == target) = none := by
    intro coinCount hcc
    rw [List.mem_range'_1] at hcc
    rw [List.find?_eq_none]
    intro x hx hbeq
    rw [simplexPoints_eq_comps] at hx
    obtain ⟨hxlen, hxsum⟩ := (mem_comps hn1).mp hx
    have hxdot : dotL x d = target := by simpa using hbeq
    have := hc0min x ⟨hxlen, hxdot⟩
    omega
  have hfk : ∃ ans, (simplexPoints c0.sum d.length).find?
      (fun cc => dotL cc d == target) = some ans := by
    have hcmem : c0 ∈ simplexPoints c0.sum d.length := by
      rw [simplexPoints_eq_comps]
      exact (mem_comps hn1).mpr ⟨hc0len, rfl⟩
    have : ((simplexPoints c0.sum d.length).find?
        (fun cc => dotL cc d == target)).isSome := by
      rw [List.find?_isSome]
      exact ⟨c0, hcmem, by simpa using hc0dot⟩
    exact Option.isSome_iff_exists.mp this
  obtain ⟨ans, hans⟩ := hfk
  refine ⟨ans, findSome?_split _ _ hfone hans, ?_, ?_, ?_⟩
  · have hmem := List.mem_of_find?_eq_some hans
    rw [simplexPoints_eq_comps] at hmem
    exact ((mem_comps hn1).mp hmem).1
  · have := List.find?_some hans
    simpa using this
  · intro c1 hc1len hc1dot
    have hmem := List.mem_of_find?_eq_some hans
    rw [simplexPoints_eq_comps] at hmem
    have hsum := ((mem_comps hn1).mp hmem).2
    rw [hsum]
    exact hc0min c1 ⟨hc1len, hc1dot⟩

/-! ### The bounded grid of change_direct -/

lemma mem_gridPoints : ∀ (axes v : List Nat),
    v ∈ gridPoints axes ↔ List.Forall₂ (· < ·) v axes := by
  intro axes
  induction axes with
  | nil =>
    intro v
    simp only [gridPoints, List.mem_singleton]
    rw [List.forall₂_nil_right_iff]
  | cons a rest ih =>
    intro v
    simp only [gridPoints, List.mem_flatMap, List.mem_map, List.mem_range]
    constructor
    · rintro ⟨x, hx, u, hu, rfl⟩
      exact List.Forall₂.cons hx ((ih u).mp hu)
    · intro hf
      match v, hf with
      | x :: u, hf =>
        rcases List.forall₂_cons.mp hf with ⟨hx, hu⟩
        exact ⟨x, hx, u, (ih u).mpr hu, rfl⟩

lemma gridPoints_pairwise : ∀ axes : List Nat,
    (gridPoints axes).Pairwise (List.Lex (· < ·)) := by
  intro axes
  induction axes with
  | nil => simp [gridPoints]
  | cons a rest ih =>
    rw [gridPoints, List.flatMap_def, List.pairwise_flatten]
    refine ⟨?_, ?_⟩
    · intro l hl
      simp only [List.mem_map] at hl
      obtain ⟨x, _, rfl⟩ := hl
      exact ih.map _ (fun u v huv => List.Lex.cons huv)
    · refine (List.pairwise_lt_range (a)).map _ ?_
      intro x y hxy u hu v hv
      simp only [List.mem_map] at hu hv
      obtain ⟨u0, _, rfl⟩ := hu
      obtain ⟨v0, _, rfl⟩ := hv
      exact List.Lex.rel hxy

lemma axesFor_length (t : Nat) : ∀ d : List Nat, (axesFor t d).length = d.length := by
  intro d
  induction d with
  | nil => rfl
  | cons coin rest ih => simp [axesFor, ih]

lemma axesFor_getD (t : Nat) : ∀ (d : List Nat) (i : Nat), i < d.length →
    (axesFor t d).getD i 0 = axisBound t (d.getD i 0) (d.drop (i + 1)) := by
  intro d
  induction d with
  | nil => intro i hi; simp at hi
  | cons coin rest ih =>
    intro i hi
    match i with
    | 0 => rfl
    | i + 1 =>
      rw [axesFor, List.getD_cons_succ, List.getD_cons_succ, List.drop_succ_cons]
      exact ih i (by simpa using hi)

lemma forall₂_lt_iff_getD {v axes : List Nat} :
    List.Forall₂ (· < ·) v axes
      ↔ v.length = axes.length ∧ ∀ i < v.length, v.getD i 0 < axes.getD i 0 := by
  rw [List.forall₂_iff_get]
  constructor
  · rintro ⟨hlen, h⟩
    refine ⟨hlen, ?_⟩
    intro i hi
    have := h i hi (by omega)
    rwa [List.get_eq_getElem, List.get_eq_getElem, ← List.getD_eq_getElem v 0 hi,
      ← List.getD_eq_getElem axes 0 (by omega)] at this
  · rintro ⟨hlen, h⟩
    refine ⟨hlen, ?_⟩
    intro i h1 h2
    have := h i h1
    rwa [List.get_eq_getElem, List.get_eq_getElem, ← List.getD_eq_getElem v 0 h1,
      ← List.getD_eq_getElem axes 0 h2]

/-! ### Sum and value after updating one coordinate -/

lemma sum_set_add {l : List Nat} {i : Nat} (x : Nat) (h : i < l.length) :
    (l.set i x).sum + l.getD i 0 = l.sum + x := by
  rw [List.set_eq_take_append_cons_drop, if_pos h]
  conv_rhs => rw [← List.take_append_drop i l, List.drop_eq_getElem_cons h,
    ← List.getD_eq_getElem l 0 h]
  rw [List.sum_append, List.sum_append]
  simp only [List.sum_cons]
  omega

lemma element_le_sum {l : List Nat} (i : Nat) : l.getD i 0 ≤ l.sum := by
  by_cases h : i < l.length
  · conv_rhs => rw [← List.take_append_drop i l, List.drop_eq_getElem_cons h,
      ← List.getD_eq_getElem l 0 h]
    rw [List.sum_append]
    simp only [List.sum_cons]
    omega
  · rw [List.getD_eq_default _ _ (by omega)]
    omega

lemma dotL_set_add : ∀ (c d : List Nat) (i x : Nat), i < c.length →
    c.length = d.length →
    dotL (c.set i x) d + c.getD i 0 * d.getD i 0 = dotL c d + x * d.getD i 0 := by
  intro c
  induction c with
  | nil => intro d i x hi _; simp at hi
  | cons a c ih =>
    intro d i x hi hlen
    match d with
    | [] => simp at hlen
    | b :: d2 =>
      match i with
      | 0 =>
        simp only [List.set_cons_zero, dotL_cons, List.getD_cons_zero]
        omega
      | i + 1 =>
        simp only [List.set_cons_succ, dotL_cons, List.getD_cons_succ]
        have := ih d2 i x (by simpa using hi) (by simpa using hlen)
        omega

lemma dotL_term_le : ∀ (c d : List Nat) (i : Nat), i < c.length →
    c.length = d.length → c.getD i 0 * d.getD i 0 ≤ dotL c d := by
  intro c
  induction c with
  | nil => intro d i hi _; simp at hi
  | cons a c ih =>
    intro d i hi hlen
    match d with
    | [] => simp at hlen
    | b :: d2 =>
      match i with
      | 0 =>
        simp only [List.getD_cons_zero, dotL_cons]
        omega
      | i + 1 =>
        simp only [List.getD_cons_succ, dotL_cons]
        have := ih d2 i (by simpa using hi) (by simpa using hlen)
        omega

/-! ### The bounded grid always contains an optimal composition -/

lemma exists_in_grid {d : List Nat} {t : Nat}
    (hsorted : d.Pairwise (· < ·)) (hpos : ∀ x ∈ d, 1 ≤ x) :
    ∀ (s : Nat) (c : List Nat), c.sum = s → c.length = d.length → dotL c d = t →
      ∃ c2, c2.length = d.length ∧ dotL c2 d = t ∧ c2.sum ≤ c.sum ∧
        c2 ∈ gridPoints (axesFor t d) := by
  intro s
  induction s using Nat.strong_induction_on with
  | _ s ih =>
    intro c hcs hclen hcdot
    by_cases hin : c ∈ gridPoints (axesFor t d)
    · exact ⟨c, hclen, hcdot, Nat.le_refl _, hin⟩
    · rw [mem_gridPoints, forall₂_lt_iff_getD] at hin
      push_neg at hin
      have hlenax : c.length = (axesFor t d).length := by
        rw [axesFor_length]
        exact hclen
      obtain ⟨i, hi, hbound⟩ := hin hlenax
      rw [axesFor_getD t d i (by omega)] at hbound
      have hdpos : 1 ≤ d.getD i 0 := by
        refine hpos _ ?_
        rw [List.getD_eq_getElem d 0 (by omega)]
        exact List.mem_iff_getElem.mpr ⟨i, by omega, rfl⟩
      rcases hfind : (d.drop (i + 1)).find? (fun cc => cc % d.getD i 0 == 0)
          with _ | dm
      · simp only [axisBound, hfind] at hbound
        have hterm : c.getD i 0 * d.getD i 0 ≤ t :=
          hcdot ▸ dotL_term_le c d i (by omega) hclen
        have hcle : c.getD i 0 ≤ t / d.getD i 0 :=
          (Nat.le_div_iff_mul_le (by omega)).mpr hterm
        omega
      · simp only [axisBound, hfind] at hbound
        have hdmmem := List.mem_of_find?_eq_some hfind
        have hdmmod : dm % d.getD i 0 = 0 := by
          simpa using List.find?_some hfind
        obtain ⟨jj, hjjlt, hjj⟩ := List.mem_iff_getElem.mp hdmmem
        have hjjlen : i + 1 + jj < d.length := by
          simp only [List.length_drop] at hjjlt
          omega
        have hdm_at : d.getD (i + 1 + jj) 0 = dm := by
          rw [List.getD_eq_getElem d 0 hjjlen, ← hjj, List.getElem_drop]
        have hmne : i + 1 + jj ≠ i := by omega
        have hdi_lt_dm : d.getD i 0 < d.getD (i + 1 + jj) 0 := by
          rw [List.getD_eq_getElem d 0 (by omega), List.getD_eq_getElem d 0 hjjlen]
          exact (List.pairwise_iff_getElem.mp hsorted) i (i + 1 + jj)
            (by omega) hjjlen (by omega)
        have hdvd : d.getD i 0 ∣ dm := Nat.dvd_of_mod_eq_zero hdmmod
        obtain ⟨r, hrdef⟩ : ∃ r, dm / d.getD i 0 = r := ⟨_, rfl⟩
        have hdm_eq : d.getD i 0 * r = dm := by
          rw [← hrdef]
          exact Nat.mul_div_cancel' hdvd
        rw [hrdef] at hbound
        have hr2 : 2 ≤ r := by
          rcases (show r = 0 ∨ r = 1 ∨ 2 ≤ r by omega) with h0 | h1 | h2
          · rw [h0, Nat.mul_zero] at hdm_eq
            omega
          · rw [h1, Nat.mul_one] at hdm_eq
            omega
          · exact h2
        have hrc : r ≤ c.getD i 0 := hbound
        have hc1len : (c.set i (c.getD i 0 - r)).length = d.length := by
          simp [hclen]
        have hc1sum : (c.set i (c.getD i 0 - r)).sum + r = c.sum := by
          have := sum_set_add (l := c) (i := i) (c.getD i 0 - r) (by omega)
          omega
        have hc1dot : dotL (c.set i (c.getD i 0 - r)) d + r * d.getD i 0 = t := by
          have hset := dotL_set_add c d i (c.getD i 0 - r) (by omega) hclen
          have hmul : (c.getD i 0 - r) * d.getD i 0 + r * d.getD i 0
              = c.getD i 0 * d.getD i 0 := by
            rw [← Nat.add_mul]
            congr 1
            omega
          omega
        have hc2len : ((c.set i (c.getD i 0 - r)).set (i + 1 + jj)
            ((c.set i (c.getD i 0 - r)).getD (i + 1 + jj) 0 + 1)).length
            = d.length := by
          simp [hclen]
        have hc2sum : ((c.set i (c.getD i 0 - r)).set (i + 1 + jj)
            ((c.set i (c.getD i 0 - r)).getD (i + 1 + jj) 0 + 1)).sum
            = c.sum - r + 1 := by
          have := sum_set_add (l := c.set i (c.getD i 0 - r)) (i := i + 1 + jj)
            ((c.set i (c.getD i 0 - r)).getD (i + 1 + jj) 0 + 1)
            (by rw [List.length_set]; omega)
          omega
        have hc2dot : dotL ((c.set i (c.getD i 0 - r)).set (i + 1 + jj)
            ((c.set i (c.getD i 0 - r)).getD (i + 1 + jj) 0 + 1)) d = t := by
          have hset2 := dotL_set_add (c.set i (c.getD i 0 - r)) d (i + 1 + jj)
            ((c.set i (c.getD i 0 - r)).getD (i + 1 + jj) 0 + 1)
            (by rw [List.length_set]; omega) hc1len
          have hexp : ((c.set i (c.getD i 0 - r)).getD (i + 1 + jj) 0 + 1)
              * d.getD (i + 1 + jj) 0
              = (c.set i (c.getD i 0 - r)).getD (i + 1 + jj) 0
                * d.getD (i + 1 + jj) 0 + d.getD (i + 1 + jj) 0 := by
            rw [Nat.add_mul, Nat.one_mul]
          have hdm2 : d.getD (i + 1 + jj) 0 = r * d.getD i 0 := by
            rw [hdm_at, ← hdm_eq, Nat.mul_comm]
          omega
        have hsumge : r ≤ c.sum := Nat.le_trans hrc (element_le_sum i)
        have hlt : ((c.set i (c.getD i 0 - r)).set (i + 1 + jj)
            ((c.set i (c.getD i 0 - r)).getD (i + 1 + jj) 0 + 1)).sum < s := by
          omega
        obtain ⟨c3, h3len, h3dot, h3le, h3mem⟩ := ih _ hlt _ rfl hc2len hc2dot
        exact ⟨c3, h3len, h3dot, by omega, h3mem⟩

/-! ### Correctness and tie-break of change_direct -/

lemma change_direct_spec (d : List Nat) (t : Nat)
    (hsorted : d.Pairwise (· < ·)) (hpos : ∀ x ∈ d, 1 ≤ x)
    (hfeas : ∃ c, c.length = d.length ∧ dotL c d = t) :
    ∃ ans, change_direct d t = .ok ans ∧ ans ∈ gridPoints (axesFor t d) ∧
      ans.length = d.length ∧ dotL ans d = t ∧
      ∀ c, c.length = d.length → dotL c d = t → ans.sum ≤ c.sum := by
  obtain ⟨c, hclen, hcdot⟩ := hfeas
  obtain ⟨c2, hc2len, hc2dot, _, hc2mem⟩ :=
    exists_in_grid hsorted hpos c.sum c rfl hclen hcdot
  have hc2filter : c2 ∈ (gridPoints (axesFor t d)).filter
      (fun v => dotL v d == t) := by
    rw [List.mem_filter]
    exact ⟨hc2mem, by simpa using hc2dot⟩
  obtain ⟨ans, hans⟩ := pyMin_isSome List.sum
    (l := (gridPoints (axesFor t d)).filter (fun v => dotL v d == t))
    (List.ne_nil_of_mem hc2filter)
  have hansmem := pyMin_mem hans
  rw [List.mem_filter] at hansmem
  have hansdot : dotL ans d = t := by simpa using hansmem.2
  have hanslen : ans.length = d.length := by
    have := ((mem_gridPoints _ _).mp hansmem.1).length_eq
    rw [this, axesFor_length]
  refine ⟨ans, ?_, hansmem.1, hanslen, hansdot, ?_⟩
  · rw [change_direct, hans]
  · intro c1 hc1len hc1dot
    obtain ⟨c3, h3len, h3dot, h3le, h3mem⟩ :=
      exists_in_grid hsorted hpos c1.sum c1 rfl hc1len hc1dot
    have h3filter : c3 ∈ (gridPoints (axesFor t d)).filter
        (fun v => dotL v d == t) := by
      rw [List.mem_filter]
      exact ⟨h3mem, by simpa using h3dot⟩
    exact Nat.le_trans (pyMin_le hans c3 h3filter) h3le

lemma change_direct_tiebreak {d : List Nat} {t : Nat} {ans : List Nat}
    (h : change_direct d t = .ok ans) :
    ans ∈ gridPoints (axesFor t d) ∧ dotL ans d = t ∧
      (∀ c ∈ gridPoints (axesFor t d), dotL c d = t → ans.sum ≤ c.sum) ∧
      (∀ c ∈ gridPoints (axesFor t d), dotL c d = t → c.sum = ans.sum →
        ans = c ∨ List.Lex (· < ·) ans c) := by
  rw [change_direct] at h
  rcases hmin : pyMin List.sum ((gridPoints (axesFor t d)).filter
      (fun v => dotL v d == t)) with _ | m
  · rw [hmin] at h
    exact absurd h (by simp)
  · rw [hmin] at h
    have hm : m = ans := by
      simpa using h
    subst hm
    have hmem := pyMin_mem hmin
    rw [List.mem_filter] at hmem
    refine ⟨hmem.1, by simpa using hmem.2, ?_, ?_⟩
    · intro c hc hcdot
      refine pyMin_le hmin c ?_
      rw [List.mem_filter]
      exact ⟨hc, by simpa using hcdot⟩
    · intro c hc hcdot hcsum
      have hcfilter : c ∈ (gridPoints (axesFor t d)).filter
          (fun v => dotL v d == t) := by
        rw [List.mem_filter]
        exact ⟨hc, by simpa using hcdot⟩
      obtain ⟨l1, l2, hdec, h1, _⟩ := pyMin_spec hmin
      have hpw : ((gridPoints (axesFor t d)).filter
          (fun v => dotL v d == t)).Pairwise (List.Lex (· < ·)) :=
        (gridPoints_pairwise (axesFor t d)).filter _
      rw [hdec] at hcfilter hpw
      rcases List.mem_append.mp hcfilter with hc1 | hc2
      · have := h1 c hc1
        omega
      · rcases List.mem_cons.mp hc2 with rfl | hc3
        · exact Or.inl rfl
        · right
          have := (List.pairwise_append.mp hpw).2.1
          exact (List.pairwise_cons.mp this).1 c hc3

/-! ### Helpers for Forall₂ -/

lemma forall₂_mem_right {α β : Type} {R : α → β → Prop} {L : List α} {vs : List β}
    (h : List.Forall₂ R L vs) : ∀ {v}, v ∈ vs → ∃ x ∈ L, R x v := by
  induction h with
  | nil => intro v hv; simp at hv
  | cons hxy _ ih =>
    intro v hv
    rcases List.mem_cons.mp hv with rfl | hv2
    · exact ⟨_, by simp, hxy⟩
    · obtain ⟨x, hx, hr⟩ := ih hv2
      exact ⟨x, List.mem_cons_of_mem _ hx, hr⟩

lemma forall₂_mem_left {α β : Type} {R : α → β → Prop} {L : List α} {vs : List β}
    (h : List.Forall₂ R L vs) : ∀ {x}, x ∈ L → ∃ v ∈ vs, R x v := by
  induction h with
  | nil => intro x hx; simp at hx
  | cons hxy _ ih =>
    intro x hx
    rcases List.mem_cons.mp hx with rfl | hx2
    · exact ⟨_, by simp, hxy⟩
    · obtain ⟨v, hv, hr⟩ := ih hx2
      exact ⟨v, List.mem_cons_of_mem _ hv, hr⟩

/-! ### Facts about pySorted -/

lemma pySorted_perm (l : List Nat) : List.Perm (pySorted l) l :=
  List.perm_insertionSort _ l

lemma pySorted_sorted (l : List Nat) : (pySorted l).Sorted (· ≤ ·) :=
  List.sorted_insertionSort _ l

/-! ### Multiset sum and card around one element -/

lemma multiset_sum_split {e : Multiset Nat} {y : Nat} (hy : y ∈ e) :
    e.sum = y + (e.erase y).sum ∧ Multiset.card e = Multiset.card (e.erase y) + 1 := by
  have hce := Multiset.cons_erase hy
  constructor
  · conv_lhs => rw [← hce]
    rw [Multiset.sum_cons]
  · conv_lhs => rw [← hce]
    rw [Multiset.card_cons]

lemma multiset_pos_sum {d : List Nat} (hpos : ∀ x ∈ d, 1 ≤ x)
    {e : Multiset Nat} (hemem : ∀ x ∈ e, x ∈ d) (h0 : e.sum = 0) : e = 0 := by
  by_contra hne
  obtain ⟨y, hy⟩ := Multiset.exists_mem_of_ne_zero hne
  have hy1 : 1 ≤ y := hpos y (hemem y hy)
  have := (multiset_sum_split hy).1
  omega

/-! ### The recursive minimizer returns an optimal extension -/

lemma implP_ok {d : List Nat} {target : Nat} (hpos : ∀ x ∈ d, 1 ≤ x)
    (hext : ∀ s < target, ∃ x ∈ d, s + x ≤ target) :
    ∀ (fuel : Nat) (coins : List Nat), coins.sum ≤ target →
      target - coins.sum < fuel → (∀ x ∈ coins, x ∈ d) →
      coins.Sorted (· ≤ ·) →
      ∃ res, implP d target fuel coins = .ok res ∧ res.Sorted (· ≤ ·) ∧
        (∀ x ∈ res, x ∈ coins ∨ x ∈ d) ∧ res.sum = target ∧
        ∀ e : Multiset Nat, (∀ x ∈ e, x ∈ d) → coins.sum + e.sum = target →
          res.length ≤ coins.length + Multiset.card e := by
  intro fuel
  induction fuel with
  | zero =>
    intro coins h1 h2 _ _
    omega
  | succ f ih =>
    intro coins hsum hfuel hmem hsorted
    rw [implP]
    by_cases heq : coins.sum = target
    · rw [if_pos heq]
      refine ⟨coins, rfl, hsorted, fun x hx => Or.inl hx, heq, ?_⟩
      intro e hemem hesum
      have he0 : e = 0 := multiset_pos_sum hpos hemem (by omega)
      rw [he0]
      simp
    · rw [if_neg heq]
      have hkid : ∀ x, x ∈ d → coins.sum + x ≤ target →
          ∃ v, implP d target f (pySorted (coins ++ [x])) = .ok v ∧
            v.Sorted (· ≤ ·) ∧ (∀ z ∈ v, z ∈ pySorted (coins ++ [x]) ∨ z ∈ d) ∧
            v.sum = target ∧
            ∀ e : Multiset Nat, (∀ z ∈ e, z ∈ d) →
              (pySorted (coins ++ [x])).sum + e.sum = target →
              v.length ≤ (pySorted (coins ++ [x])).length + Multiset.card e := by
        intro x hxd hxle
        have hx1 : 1 ≤ x := hpos x hxd
        have hksum : (pySorted (coins ++ [x])).sum = coins.sum + x := by
          rw [(pySorted_perm _).sum_eq, List.sum_append]
          simp
        apply ih
        · omega
        · omega
        · intro z hz
          have := (pySorted_perm _).mem_iff.mp hz
          rcases List.mem_append.mp this with hz1 | hz2
          · exact hmem z hz1
          · rw [List.mem_singleton] at hz2
            exact hz2 ▸ hxd
        · exact pySorted_sorted _
      have hcollect : ∀ L : List Nat, (∀ x ∈ L, x ∈ d ∧ coins.sum + x ≤ target) →
          ∃ vs, collectResults (L.map
              (fun x => implP d target f (pySorted (coins ++ [x])))) = .ok vs ∧
            List.Forall₂ (fun x v =>
              implP d target f (pySorted (coins ++ [x])) = .ok v) L vs := by
        intro L
        induction L with
        | nil => exact fun _ => ⟨[], rfl, List.Forall₂.nil⟩
        | cons x L ihL =>
          intro hL
          obtain ⟨v, hv, _⟩ := hkid x (hL x (by simp)).1 (hL x (by simp)).2
          obtain ⟨vs, hvs, hf⟩ := ihL (fun y hy => hL y (List.mem_cons_of_mem x hy))
          refine ⟨v :: vs, ?_, List.Forall₂.cons hv hf⟩
          rw [List.map_cons, hv]
          rw [collectResults, hvs]
      obtain ⟨x0, hx0d, hx0le⟩ := hext coins.sum (by omega)
      have hx0cand : x0 ∈ d.filter (fun x => coins.sum + x ≤ target) := by
        rw [List.mem_filter]
        exact ⟨hx0d, by simpa using hx0le⟩
      obtain ⟨vs, hvs, hforall⟩ := hcollect
        (d.filter (fun x => coins.sum + x ≤ target))
        (fun x hx => by
          rw [List.mem_filter] at hx
          exact ⟨hx.1, by simpa using hx.2⟩)
      simp only [hvs]
      have hvs_ne : vs ≠ [] := by
        intro h0
        subst h0
        obtain ⟨v, hv, _⟩ := forall₂_mem_left hforall hx0cand
        simp at hv
      obtain ⟨m, hm⟩ := pyMin_isSome List.length hvs_ne
      simp only [hm]
      obtain ⟨xm, hxmL, hxm⟩ := forall₂_mem_right hforall (pyMin_mem hm)
      rw [List.mem_filter] at hxmL
      obtain ⟨v, hveq, hvsorted, hvmem, hvsum, hvmin⟩ :=
        hkid xm hxmL.1 (by simpa using hxmL.2)
      have hvm : v = m := by
        have := hveq.symm.trans hxm
        exact PyResult.ok.inj this
      subst hvm
      refine ⟨v, rfl, hvsorted, ?_, hvsum, ?_⟩
      · intro z hz
        rcases hvmem z hz with hz1 | hz2
        · have := (pySorted_perm _).mem_iff.mp hz1
          rcases List.mem_append.mp this with hz3 | hz4
          · exact Or.inl hz3
          · rw [List.mem_singleton] at hz4
            exact Or.inr (hz4 ▸ hxmL.1)
        · exact Or.inr hz2
      · intro e hemem hesum
        have hene : e ≠ 0 := by
          intro h0
          rw [h0] at hesum
          simp at hesum
          omega
        obtain ⟨y, hy⟩ := Multiset.exists_mem_of_ne_zero hene
        have hyd : y ∈ d := hemem y hy
        have hy1 : 1 ≤ y := hpos y hyd
        obtain ⟨hsume, hcarde⟩ := multiset_sum_split hy
        have hyle : coins.sum + y ≤ target := by omega
        have hycand : y ∈ d.filter (fun x => coins.sum + x ≤ target) := by
          rw [List.mem_filter]
          exact ⟨hyd, by simpa using hyle⟩
        obtain ⟨vy, hvy, hvyok⟩ := forall₂_mem_left hforall hycand
        obtain ⟨w, hweq, _, _, _, hwmin⟩ := hkid y hyd hyle
        have hwvy : w = vy := by
          have := hweq.symm.trans hvyok
          exact PyResult.ok.inj this
        rw [← hwvy] at hvy
        have hkeysum : (pySorted (coins ++ [y])).sum = coins.sum + y := by
          rw [(pySorted_perm _).sum_eq, List.sum_append]
          simp
        have hkeylen : (pySorted (coins ++ [y])).length = coins.length + 1 := by
          rw [(pySorted_perm _).length_eq, List.length_append]
          simp
        have hwlen : w.length ≤ coins.length + 1 + Multiset.card (e.erase y) := by
          have := hwmin (e.erase y)
            (fun z hz => hemem z (Multiset.mem_of_mem_erase hz))
            (by rw [hkeysum]; omega)
          rwa [hkeylen] at this
        have := pyMin_le hm w hvy
        omega

/-! ### The recursive minimizer either answers or raises ValueError -/

lemma implP_cases {d : List Nat} {target : Nat} (hpos : ∀ x ∈ d, 1 ≤ x) :
    ∀ (fuel : Nat) (coins : List Nat), coins.sum ≤ target →
      target - coins.sum < fuel → (∀ x ∈ coins, x ∈ d) →
      (∃ res, implP d target fuel coins = .ok res ∧ res.sum = target ∧
        ∀ x ∈ res, x ∈ d)
      ∨ implP d target fuel coins = .valueError := by
  intro fuel
  induction fuel with
  | zero =>
    intro coins h1 h2 _
    omega
  | succ f ih =>
    intro coins hsum hfuel hmem
    rw [implP]
    by_cases heq : coins.sum = target
    · rw [if_pos heq]
      exact Or.inl ⟨coins, rfl, heq, hmem⟩
    · rw [if_neg heq]
      have hkid : ∀ x, x ∈ d → coins.sum + x ≤ target →
          (∃ v, implP d target f (pySorted (coins ++ [x])) = .ok v ∧
            v.sum = target ∧ ∀ z ∈ v, z ∈ d)
          ∨ implP d target f (pySorted (coins ++ [x])) = .valueError := by
        intro x hxd hxle
        have hx1 : 1 ≤ x := hpos x hxd
        have hksum : (pySorted (coins ++ [x])).sum = coins.sum + x := by
          rw [(pySorted_perm _).sum_eq, List.sum_append]
          simp
        apply ih
        · omega
        · omega
        · intro z hz
          have := (pySorted_perm _).mem_iff.mp hz
          rcases List.mem_append.mp this with hz1 | hz2
          · exact hmem z hz1
          · rw [List.mem_singleton] at hz2
            exact hz2 ▸ hxd
      have hcol : ∀ L : List Nat, (∀ x ∈ L, x ∈ d ∧ coins.sum + x ≤ target) →
          (∃ vs, collectResults (L.map
              (fun x => implP d target f (pySorted (coins ++ [x])))) = .ok vs ∧
            List.Forall₂ (fun x v =>
              implP d target f (pySorted (coins ++ [x])) = .ok v ∧ v.sum = target ∧
              ∀ z ∈ v, z ∈ d) L vs)
          ∨ collectResults (L.map
              (fun x => implP d target f (pySorted (coins ++ [x]))))
              = .valueError := by
        intro L
        induction L with
        | nil => exact fun _ => Or.inl ⟨[], rfl, List.Forall₂.nil⟩
        | cons x L ihL =>
          intro hL
          rcases hkid x (hL x (by simp)).1 (hL x (by simp)).2 with
            ⟨v, hv, hvsum, hvmem⟩ | hvE
          · rcases ihL (fun y hy => hL y (List.mem_cons_of_mem x hy)) with
              ⟨vs, hvs, hf⟩ | hcolE
            · refine Or.inl ⟨v :: vs, ?_, List.Forall₂.cons ⟨hv, hvsum, hvmem⟩ hf⟩
              rw [List.map_cons, hv, collectResults, hvs]
            · refine Or.inr ?_
              rw [List.map_cons, hv, collectResults, hcolE]
          · refine Or.inr ?_
            rw [List.map_cons, hvE]
            rfl
      rcases hcol (d.filter (fun x => coins.sum + x ≤ target))
          (fun x hx => by
            rw [List.mem_filter] at hx
            exact ⟨hx.1, by simpa using hx.2⟩) with ⟨vs, hvs, hf⟩ | hcolE
      · simp only [hvs]
        match vs, hf with
        | [], _ =>
          right
          rfl
        | v :: vs, hf =>
          obtain ⟨m, hm⟩ := pyMin_isSome List.length (l := v :: vs) (by simp)
          simp only [hm]
          obtain ⟨xm, hxmL, hxm⟩ := forall₂_mem_right hf (pyMin_mem hm)
          exact Or.inl ⟨m, rfl, hxm.2.1, hxm.2.2⟩
      · simp only [hcolE]
        right
        trivial

/-! ### The result of implP does not depend on the fuel once it is sufficient -/

lemma implP_fuel_irrel {d : List Nat} {target : Nat} (hpos : ∀ x ∈ d, 1 ≤ x) :
    ∀ (f1 f2 : Nat) (coins : List Nat), coins.sum ≤ target →
      target - coins.sum < f1 → target - coins.sum < f2 →
      implP d target f1 coins = implP d target f2 coins := by
  intro f1
  induction f1 with
  | zero =>
    intro f2 coins h1 h2 _
    omega
  | succ g1 ih =>
    intro f2 coins hsum hf1 hf2
    match f2 with
    | 0 => omega
    | g2 + 1 =>
      rw [implP, implP]
      by_cases heq : coins.sum = target
      · rw [if_pos heq, if_pos heq]
      · rw [if_neg heq, if_neg heq]
        have hmaps : (d.filter (fun x => coins.sum + x ≤ target)).map
            (fun x => implP d target g1 (pySorted (coins ++ [x])))
            = (d.filter (fun x => coins.sum + x ≤ target)).map
              (fun x => implP d target g2 (pySorted (coins ++ [x]))) := by
          apply List.map_congr_left
          intro x hx
          rw [List.mem_filter] at hx
          have hx1 : 1 ≤ x := hpos x hx.1
          have hxle : coins.sum + x ≤ target := by simpa using hx.2
          have hksum : (pySorted (coins ++ [x])).sum = coins.sum + x := by
            rw [(pySorted_perm _).sum_eq, List.sum_append]
            simp
          apply ih
          · omega
          · omega
          · omega
        rw [hmaps]

/-! ### Cache soundness: the memoized run returns what the plain run returns -/

/-- Every entry of the functools cache records the value the plain recursion
gives for its key (at any sufficient fuel). -/
def GoodCache (d : List Nat) (target : Nat) (c : Cache) : Prop :=
  ∀ p ∈ c, p.1.sum ≤ target ∧
    implP d target (target - p.1.sum + 1) p.1 = .ok p.2

lemma goodCache_nil (d : List Nat) (target : Nat) : GoodCache d target [] := by
  intro p hp
  simp at hp

lemma foldl_err {d : List Nat} {target : Nat} {f : Nat} {coins : List Nat} :
    ∀ (L : List Nat) (e : PyResult (List (List Nat))) (cache : Cache),
      e ≠ .ok [] → (∀ vs, e ≠ .ok vs) →
      L.foldl (fun (acc : PyResult (List (List Nat)) × Cache) x =>
        match acc with
        | (.ok vs, cc) =>
          match implC d target f cc (pySorted (coins ++ [x])) with
          | (.ok v, cc2) => (.ok (vs ++ [v]), cc2)
          | (.valueError, cc2) => (.valueError, cc2)
          | (.recursionError, cc2) => (.recursionError, cc2)
        | e => e) (e, cache) = (e, cache) := by
  intro L
  induction L with
  | nil => intro e cache _ _; rfl
  | cons x L ihL =>
    intro e cache h1 h2
    rw [List.foldl_cons]
    match e, h2 with
    | .valueError, _ => exact ihL _ _ (by simp) (by simp)
    | .recursionError, _ => exact ihL _ _ (by simp) (by simp)
    | .ok vs, h2 => exact absurd rfl (h2 vs)

lemma implC_foldl {d : List Nat} {target : Nat} (hpos : ∀ x ∈ d, 1 ≤ x)
    (f : Nat) (coins : List Nat)
    (hIH : ∀ (coins2 : List Nat) (cache : Cache), GoodCache d target cache →
      coins2.sum ≤ target → target - coins2.sum < f →
      (implC d target f cache coins2).1 = implP d target f coins2 ∧
      GoodCache d target (implC d target f cache coins2).2) :
    ∀ (L : List Nat) (acc : List (List Nat)) (cache : Cache),
      GoodCache d target cache →
      (∀ x ∈ L, 1 ≤ x ∧ coins.sum + x ≤ target ∧
        target - (coins.sum + x) < f) →
      ∃ cache1, GoodCache d target cache1 ∧
        L.foldl (fun (acc : PyResult (List (List Nat)) × Cache) x =>
          match acc with
          | (.ok vs, cc) =>
            match implC d target f cc (pySorted (coins ++ [x])) with
            | (.ok v, cc2) => (.ok (vs ++ [v]), cc2)
            | (.valueError, cc2) => (.valueError, cc2)
            | (.recursionError, cc2) => (.recursionError, cc2)
          | e => e) (.ok acc, cache)
        = (match collectResults (L.map
            (fun x => implP d target f (pySorted (coins ++ [x])))) with
           | .ok vs => .ok (acc ++ vs)
           | .valueError => .valueError
           | .recursionError => .recursionError, cache1) := by
  intro L
  induction L with
  | nil =>
    intro acc cache hg _
    exact ⟨cache, hg, by simp [collectResults]⟩
  | cons x L ihL =>
    intro acc cache hg hL
    obtain ⟨hx1, hxle, hxf⟩ := hL x (by simp)
    have hksum : (pySorted (coins ++ [x])).sum = coins.sum + x := by
      rw [(pySorted_perm _).sum_eq, List.sum_append]
      simp
    obtain ⟨hC1, hCg⟩ := hIH (pySorted (coins ++ [x])) cache hg
      (by omega) (by omega)
    rw [List.foldl_cons, List.map_cons]
    rcases hcall : implC d target f cache (pySorted (coins ++ [x])) with ⟨rx, cache2⟩
    rw [hcall] at hC1 hCg
    simp only at hC1 hCg
    match rx, hC1 with
    | .ok v, hC1 =>
      obtain ⟨cache3, hg3, hfold⟩ :=
        ihL (acc ++ [v]) cache2 hCg (fun y hy => hL y (List.mem_cons_of_mem x hy))
      refine ⟨cache3, hg3, ?_⟩
      simp only [hcall]
      rw [hfold, ← hC1, collectResults]
      rcases collectResults (L.map
          (fun x => implP d target f (pySorted (coins ++ [x])))) with vs | _ | _
      · simp
      · rfl
      · rfl
    | .valueError, hC1 =>
      refine ⟨cache2, hCg, ?_⟩
      simp only [hcall]
      rw [foldl_err L _ cache2 (by simp) (by simp)]
      rw [← hC1, collectResults]
    | .recursionError, hC1 =>
      refine ⟨cache2, hCg, ?_⟩
      simp only [hcall]
      rw [foldl_err L _ cache2 (by simp) (by simp)]
      rw [← hC1, collectResults]

lemma implC_eq_implP {d : List Nat} {target : Nat} (hpos : ∀ x ∈ d, 1 ≤ x) :
    ∀ (fuel : Nat) (coins : List Nat) (cache : Cache),
      GoodCache d target cache → coins.sum ≤ target →
      target - coins.sum < fuel →
      (implC d target fuel cache coins).1 = implP d target fuel coins ∧
      GoodCache d target (implC d target fuel cache coins).2 := by
  intro fuel
  induction fuel with
  | zero =>
    intro coins cache _ h1 h2
    omega
  | succ f ih =>
    intro coins cache hg hsum hfuel
    rcases hlook : lookupC cache coins with _ | v
    · -- cache miss
      by_cases heq : coins.sum = target
      · rw [implC, implP, hlook]
        simp only [if_pos heq]
        refine ⟨trivial, ?_⟩
        intro p hp
        rcases List.mem_cons.mp hp with rfl | hp2
        · show coins.sum ≤ target ∧
            implP d target (target - coins.sum + 1) coins = .ok coins
          refine ⟨by omega, ?_⟩
          have h1 : target - coins.sum + 1 = 1 := by omega
          rw [h1, implP, if_pos heq]
        · exact hg p hp2
      · rw [implC, implP, hlook]
        simp only [if_neg heq]
        obtain ⟨cache1, hg1, hfold⟩ := implC_foldl hpos f coins
          (fun c2 cc hgc h1 h2 => ih c2 cc hgc h1 h2)
          (d.filter (fun x => coins.sum + x ≤ target)) [] cache hg
          (by
            intro x hx
            rw [List.mem_filter] at hx
            have hx1 : 1 ≤ x := hpos x hx.1
            refine ⟨hx1, by simpa using hx.2, ?_⟩
            have : coins.sum + x ≤ target := by simpa using hx.2
            omega)
        rw [hfold]
        rcases hcol : collectResults
            ((d.filter (fun x => coins.sum + x ≤ target)).map
              (fun x => implP d target f (pySorted (coins ++ [x])))) with vs | _ | _
        · simp only [List.nil_append]
          rcases hmin : pyMin List.length vs with _ | m
          · exact ⟨rfl, hg1⟩
          · refine ⟨rfl, ?_⟩
            intro p hp
            rcases List.mem_cons.mp hp with rfl | hp2
            · show coins.sum ≤ target ∧
                implP d target (target - coins.sum + 1) coins = .ok m
              refine ⟨by omega, ?_⟩
              have himpl : implP d target (f + 1) coins = .ok m := by
                rw [implP, if_neg heq]
                simp only [hcol, hmin]
              rw [implP_fuel_irrel hpos _ (f + 1) coins hsum (by omega) hfuel]
              exact himpl
            · exact hg1 p hp2
        · exact ⟨rfl, hg1⟩
        · exact ⟨rfl, hg1⟩
    · -- cache hit
      rw [implC, hlook]
      simp only
      rcases hfindeq : cache.find? (fun p => p.1 == coins) with _ | p
      · rw [lookupC, hfindeq] at hlook
        simp at hlook
      · have hpmem := List.mem_of_find?_eq_some hfindeq
        have hpkey : p.1 = coins := by
          have := List.find?_some hfindeq
          simpa using this
        have hpv : p.2 = v := by
          rw [lookupC, hfindeq] at hlook
          simpa using hlook
        obtain ⟨hple, hpok⟩ := hg p hpmem
        rw [hpkey, hpv] at hpok
        refine ⟨?_, hg⟩
        rw [implP_fuel_irrel hpos (f + 1) (target - coins.sum + 1) coins hsum hfuel
          (by omega)]
        rw [hpkey] at hple
        exact hpok.symm

/-! ### Corollaries for `change_cached`, casts, and count-vector bridges -/

lemma change_cached_eq_implP {d : List Nat} {target : Nat}
    (hpos : ∀ x ∈ d, 1 ≤ x) :
    change_cached d target = implP d target (target + 1) [] :=
  (implC_eq_implP hpos (target + 1) [] [] (goodCache_nil d target)
    (by simp) (by simp only [List.sum_nil]; omega)).1

lemma dotL_cast : ∀ (c d : List Nat),
    (List.zipWith (· * ·) (c.map Int.ofNat) (d.map Int.ofNat)).sum
      = Int.ofNat (dotL c d) := by
  intro c
  induction c with
  | nil => intro d; simp [dotL]
  | cons a c ih =>
    intro d
    match d with
    | [] => simp [dotL]
    | y :: ys =>
      simp only [List.map_cons, List.zipWith_cons_cons, List.sum_cons,
        dotL_cons, ih ys]
      simp only [Int.ofNat_eq_natCast]
      push_cast
      ring

lemma dotL_dvd {k : Nat} : ∀ {d : List Nat}, (∀ x ∈ d, k ∣ x) →
    ∀ c, k ∣ dotL c d := by
  intro d
  induction d with
  | nil =>
    intro _ c
    match c with
    | [] => simp [dotL]
    | a :: c2 => simp [dotL]
  | cons y ys ih =>
    intro h c
    match c with
    | [] => simp [dotL]
    | a :: c2 =>
      rw [dotL_cons]
      exact Nat.dvd_add (Dvd.dvd.mul_left (h y (by simp)) a)
        (ih (fun x hx => h x (by simp [hx])) c2)

lemma toCounts_length (d l : List Nat) : (toCounts d l).length = d.length := by
  rw [toCounts, List.length_map]

lemma count_indicator_sum (a : Nat) : ∀ d : List Nat,
    (d.map (fun x => if a = x then 1 else 0)).sum = d.count a := by
  intro d
  induction d with
  | nil => simp
  | cons y ys ih =>
    rw [List.map_cons, List.sum_cons, ih, List.count_cons]
    simp only [beq_iff_eq]
    by_cases h : a = y
    · rw [if_pos h, if_pos h.symm]
      omega
    · rw [if_neg h, if_neg (fun hc => h hc.symm)]
      omega

lemma sum_map_add (f g : Nat → Nat) : ∀ d : List Nat,
    (d.map (fun x => f x + g x)).sum = (d.map f).sum + (d.map g).sum := by
  intro d
  induction d with
  | nil => simp
  | cons y ys ih =>
    simp only [List.map_cons, List.sum_cons, ih]
    ring

lemma dotL_map_add (f g : Nat → Nat) : ∀ d : List Nat,
    dotL (d.map (fun x => f x + g x)) d = dotL (d.map f) d + dotL (d.map g) d := by
  intro d
  induction d with
  | nil => simp [dotL]
  | cons y ys ih =>
    simp only [List.map_cons, dotL_cons, ih]
    ring

lemma dotL_indicator {a : Nat} : ∀ {d : List Nat}, d.Nodup → a ∈ d →
    dotL (d.map (fun x => if a = x then 1 else 0)) d = a := by
  intro d
  induction d with
  | nil => intro _ h; simp at h
  | cons y ys ih =>
    intro hnd ha
    simp only [List.map_cons, dotL_cons]
    by_cases h : a = y
    · rw [if_pos h]
      have hnotin : a ∉ ys := by
        subst h
        exact (List.nodup_cons.mp hnd).1
      have hz : (ys.map (fun x => if a = x then 1 else 0)).sum = 0 := by
        rw [count_indicator_sum]
        exact List.count_eq_zero.mpr hnotin
      rw [dotL_zero_of_sum_zero hz]
      omega
    · rw [if_neg h]
      have hain : a ∈ ys := by
        rcases List.mem_cons.mp ha with h2 | h2
        · exact absurd h2 h
        · exact h2
      rw [ih (List.nodup_cons.mp hnd).2 hain]
      omega

lemma toCounts_cons (d : List Nat) (a : Nat) (l : List Nat) :
    toCounts d (a :: l)
      = d.map (fun x => l.count x + if a = x then 1 else 0) := by
  rw [toCounts]
  apply List.map_congr_left
  intro x _
  rw [List.count_cons]
  simp only [beq_iff_eq]

lemma toCounts_sum {d : List Nat} (hnd : d.Nodup) :
    ∀ l : List Nat, (∀ x ∈ l, x ∈ d) → (toCounts d l).sum = l.length := by
  intro l
  induction l with
  | nil => intro _; simp [toCounts]
  | cons a l ih =>
    intro h
    rw [toCounts_cons, sum_map_add (fun x => l.count x) (fun x => if a = x then 1 else 0)]
    have h1 : (d.map (fun x => l.count x)).sum = l.length := by
      rw [← toCounts]
      exact ih (fun x hx => h x (by simp [hx]))
    have h2 : (d.map (fun x => if a = x then 1 else 0)).sum = 1 := by
      rw [count_indicator_sum]
      exact List.count_eq_one_of_mem hnd (h a (by simp))
    rw [h1, h2, List.length_cons]

lemma toCounts_dotL {d : List Nat} (hnd : d.Nodup) :
    ∀ l : List Nat, (∀ x ∈ l, x ∈ d) → dotL (toCounts d l) d = l.sum := by
  intro l
  induction l with
  | nil =>
    intro _
    apply dotL_zero_of_sum_zero
    simp [toCounts]
  | cons a l ih =>
    intro h
    rw [toCounts_cons, dotL_map_add (fun x => l.count x) (fun x => if a = x then 1 else 0)]
    have h1 : dotL (d.map (fun x => l.count x)) d = l.sum := by
      rw [← toCounts]
      exact ih (fun x hx => h x (by simp [hx]))
    rw [h1, dotL_indicator hnd (h a (by simp)), List.sum_cons]
    ring

lemma change_simplex_comps (d : List Nat) (t : Nat) :
    change_simplex d t
      = (List.range' 1 (t / d.headI)).findSome?
          (fun k => (comps k d.length).find? (fun c => dotL c d == t)) := by
  rw [change_simplex]
  congr 1
  funext k
  rw [simplexPoints_eq_comps]

lemma simplexPointsNp_eq (k : Nat) {n : Nat} (hn : 1 ≤ n) :
    simplexPointsNp k n = (comps k n).map (fun r => r.map Int.ofNat) := by
  rw [simplexPointsNp]
  exact simplex_loop_eq_comps hn

/-! ### Concrete evaluations shared by the scenario claims -/

set_option maxRecDepth 10000 in
lemma change_simplex_189 :
    change_simplex [1, 5, 10, 25, 100] 189 = some [4, 0, 1, 3, 1] := by
  rw [change_simplex_comps]
  decide

set_option maxRecDepth 10000 in
lemma change_direct_189 :
    change_direct [1, 5, 10, 25, 100] 189 = .ok [4, 0, 1, 3, 1] := by
  decide

/-! ### The claims -/

/-- Claim C1: for every total ≥ 1 and every number of dimensions n ≥ 1, the
sequence of C(total+n-1, n-1) rows produced by the iterative successor
algorithm `simplex_loop` (starting from the composition with the whole total
in the last position) is element-for-element identical, in the same order,
to the sequence of weak compositions yielded by the recursive generator
`simplexPoints` used by `change_simplex`. -/
theorem C1_simplex_loop_matches_generator (total n : Nat)
    (htotal : 1 ≤ total) (hn : 1 ≤ n) :
    simplex_loop (Int.ofNat total) (Nat.choose (total + n - 1) (n - 1)) n
      = (simplexPoints total n).map (fun row => row.map Int.ofNat) := by
  rw [simplexPoints_eq_comps]
  exact simplex_loop_eq_comps hn

/-- Closed instance of C1 at total = 2, n = 3. -/
theorem C1_witness :
    1 ≤ 2 ∧ 1 ≤ 3 ∧
      simplex_loop (Int.ofNat 2) (Nat.choose (2 + 3 - 1) (3 - 1)) 3
        = (simplexPoints 2 3).map (fun row => row.map Int.ofNat) :=
  ⟨by decide, by decide,
    C1_simplex_loop_matches_generator 2 3 (by decide) (by decide)⟩

/-- Claim C2: for every strictly increasing sequence of distinct positive
denominations and every target ≥ 1 for which at least one feasible count
vector exists, `change_simplex` returns a count vector of length
`d.length` whose monetary value equals the target and whose coin count is
minimal among all feasible count vectors (the first match encountered is
optimal because compositions are enumerated in increasing order of total
coin count, bounded by `target / d.headI`). -/
theorem C2_change_simplex_optimal (d : List Nat) (target : Nat)
    (hne : d ≠ []) (hsorted : d.Pairwise (· < ·)) (hpos : ∀ x ∈ d, 1 ≤ x)
    (htarget : 1 ≤ target)
    (hfeas : ∃ c, c.length = d.length ∧ dotL c d = target) :
    ∃ ans, change_simplex d target = some ans ∧ ans.length = d.length ∧
      dotL ans d = target ∧
      ∀ c, c.length = d.length → dotL c d = target → ans.sum ≤ c.sum :=
  change_simplex_spec d target hne hsorted hpos htarget hfeas

/-- Closed instance of C2 at d = [1, 2], target = 3. -/
theorem C2_witness :
    ∃ ans, change_simplex [1, 2] 3 = some ans ∧
      ans.length = ([1, 2] : List Nat).length ∧ dotL ans [1, 2] = 3 ∧
      ∀ c, c.length = ([1, 2] : List Nat).length → dotL c [1, 2] = 3 →
        ans.sum ≤ c.sum :=
  C2_change_simplex_optimal [1, 2] 3 (by decide) (by decide) (by decide)
    (by decide) ⟨[1, 1], by decide, by decide⟩

/-- Claim C3: for every strictly increasing sequence of distinct positive
denominations and every target for which a feasible count vector exists,
`change_direct` returns an optimal count vector, and the bounded grid cut
by `axesFor` always contains an optimal count vector (using `r` or more
coins of a denomination whose `r`-fold multiple is a later denomination is
never necessary). -/
theorem C3_change_direct_optimal (d : List Nat) (t : Nat)
    (hsorted : d.Pairwise (· < ·)) (hpos : ∀ x ∈ d, 1 ≤ x)
    (hfeas : ∃ c, c.length = d.length ∧ dotL c d = t) :
    ∃ ans, change_direct d t = .ok ans ∧ ans ∈ gridPoints (axesFor t d) ∧
      ans.length = d.length ∧ dotL ans d = t ∧
      ∀ c, c.length = d.length → dotL c d = t → ans.sum ≤ c.sum :=
  change_direct_spec d t hsorted hpos hfeas

/-- Closed instance of C3 at d = [1, 2], t = 3. -/
theorem C3_witness :
    ∃ ans, change_direct [1, 2] 3 = .ok ans ∧
      ans ∈ gridPoints (axesFor 3 [1, 2]) ∧
      ans.length = ([1, 2] : List Nat).length ∧ dotL ans [1, 2] = 3 ∧
      ∀ c, c.length = ([1, 2] : List Nat).length → dotL c [1, 2] = 3 →
        ans.sum ≤ c.sum :=
  C3_change_direct_optimal [1, 2] 3 (by decide) (by decide)
    ⟨[1, 1], by decide, by decide⟩

lemma isEmpty_map {α β : Type} (f : α → β) (l : List α) :
    (l.map f).isEmpty = l.isEmpty := by
  cases l <;> rfl

lemma change_simplex_np_comps (d : List Nat) (t : Nat) (hn : 1 ≤ d.length) :
    change_simplex_np d t
      = (List.range' 1 (t / d.headI)).findSome?
          (fun k =>
            let m := (comps k d.length).filter (fun c => dotL c d == t)
            if m.isEmpty then none
            else some (m.map (fun r => r.map Int.ofNat))) := by
  rw [change_simplex_np]
  congr 1
  funext k
  rw [simplexPointsNp_eq k hn, List.filter_map]
  have hpred : ((fun row : List Int =>
        (List.zipWith (· * ·) row (d.map Int.ofNat)).sum == (t : Int))
        ∘ (fun r : List Nat => r.map Int.ofNat))
      = fun c => dotL c d == t := by
    funext c
    simp only [Function.comp_apply, dotL_cast, Int.ofNat_eq_natCast]
    by_cases h : dotL c d = t
    · simp [h]
    · simp [h, Nat.cast_inj]
  rw [hpred]
  simp only [isEmpty_map]

/-- Claim C4 (corrected): the original claim fails because Python's `min`
propagates a `ValueError` raised while its generator recurses into a
dead-end partial state, even when a feasible composition for the target
exists (see `C4_counterexample`).  Under the additional hypothesis that
every partial sum below the target can be extended by some denomination
without overshooting it, `change_cached` returns an optimal composition as
a sorted (non-decreasing) list of individual coin values drawn from the
denominations, whose sum equals the target and whose length is minimal
among all coin selections reaching the target. -/
theorem C4_change_cached_optimal (d : List Nat) (target : Nat)
    (hpos : ∀ x ∈ d, 1 ≤ x)
    (hext : ∀ s < target, ∃ x ∈ d, s + x ≤ target) :
    ∃ res, change_cached d target = .ok res ∧ res.Sorted (· ≤ ·) ∧
      (∀ x ∈ res, x ∈ d) ∧ res.sum = target ∧
      ∀ l : List Nat, (∀ x ∈ l, x ∈ d) → l.sum = target →
        res.length ≤ l.length := by
  obtain ⟨res, hres, hsort, hmem, hsum, hmin⟩ :=
    implP_ok hpos hext (target + 1) [] (by simp)
      (by simp only [List.sum_nil]; omega) (by simp) List.sorted_nil
  refine ⟨res, ?_, hsort, ?_, hsum, ?_⟩
  · rw [change_cached_eq_implP hpos, hres]
  · intro x hx
    rcases hmem x hx with h | h
    · simp at h
    · exact h
  · intro l hl hlsum
    have := hmin (↑l) (by simpa using hl) (by simpa using hlsum)
    simpa using this

/-- Closed instance of C4 at d = [1, 2], target = 3. -/
theorem C4_witness :
    ∃ res, change_cached [1, 2] 3 = .ok res ∧ res.Sorted (· ≤ ·) ∧
      (∀ x ∈ res, x ∈ [1, 2]) ∧ res.sum = 3 ∧
      ∀ l : List Nat, (∀ x ∈ l, x ∈ [1, 2]) → l.sum = 3 →
        res.length ≤ l.length :=
  C4_change_cached_optimal [1, 2] 3 (by decide) (by decide)

/-- Counterexample to the original C4: with denominations [3, 4] and
target 6 a feasible selection exists ([3, 3]), yet `change_cached` raises
`ValueError`: while `min` consumes its generator, the recursive call for
the partial state (4) finds no denomination that still fits (4 + 3 and
4 + 4 both exceed 6), so the inner `min` raises on an empty sequence and
the exception propagates to the top. -/
theorem C4_counterexample :
    (∀ x ∈ [3, 3], x ∈ [3, 4]) ∧ List.sum [3, 3] = 6 ∧
      change_cached [3, 4] 6 = .valueError := by
  decide

/-- Claim C5: no mutable state crosses top-level invocations of
`change_cached`: the `functools.cache` dictionary is attached to the
`impl` closure created afresh inside each top-level call, so first running
`change_cached d1 t1` cannot change the value of a following
`change_cached d2 t2`. -/
theorem C5_cache_scoped_per_call (d1 : List Nat) (t1 : Nat)
    (d2 : List Nat) (t2 : Nat) :
    change_cached_twice d1 t1 d2 t2 = change_cached d2 t2 := rfl

/-- Claim C6 (corrected): when no composition of the denominations reaches
the target, the two simplex strategies indeed return the explicit
no-answer value `None`, but `change_cached` and `change_direct` raise a
`ValueError` exception (from `min` on an empty sequence) instead of
returning an explicit infeasible outcome — the original claim fails for
those two strategies (see `C6_counterexample`). -/
theorem C6_infeasible_outcomes (d : List Nat) (t : Nat)
    (hne : d ≠ []) (hpos : ∀ x ∈ d, 1 ≤ x)
    (hdot : ∀ c : List Nat, dotL c d ≠ t)
    (hlist : ∀ l : List Nat, (∀ x ∈ l, x ∈ d) → l.sum ≠ t) :
    change_simplex d t = none ∧ change_simplex_np d t = none ∧
      change_direct d t = .valueError ∧ change_cached d t = .valueError := by
  have hn1 : 1 ≤ d.length := List.length_pos.mpr hne
  refine ⟨?_, ?_, ?_, ?_⟩
  · rw [change_simplex]
    apply List.findSome?_eq_none_iff.mpr
    intro k _
    apply List.find?_eq_none.mpr
    intro c _
    simp only [beq_iff_eq]
    exact hdot c
  · rw [change_simplex_np_comps d t hn1]
    apply List.findSome?_eq_none_iff.mpr
    intro k _
    have hfil : (comps k d.length).filter (fun c => dotL c d == t) = [] := by
      apply List.filter_eq_nil_iff.mpr
      intro c _
      simp only [beq_iff_eq]
      exact hdot c
    simp only [hfil]
    rfl
  · rw [change_direct]
    have hfil : (gridPoints (axesFor t d)).filter (fun v => dotL v d == t) = [] := by
      apply List.filter_eq_nil_iff.mpr
      intro v _
      simp only [beq_iff_eq]
      exact hdot v
    rw [hfil]
    rfl
  · rw [change_cached_eq_implP hpos]
    rcases @implP_cases d t hpos (t + 1) [] (by simp)
        (by simp only [List.sum_nil]; omega) (by simp) with
      ⟨res, hres, hsum, hmem⟩ | hval
    · exact absurd hsum (hlist res hmem)
    · exact hval

/-- Closed instance of C6 at d = [2, 4], t = 3 (all values reachable with
coins 2 and 4 are even, so 3 is infeasible). -/
theorem C6_witness :
    change_simplex [2, 4] 3 = none ∧ change_simplex_np [2, 4] 3 = none ∧
      change_direct [2, 4] 3 = .valueError ∧
      change_cached [2, 4] 3 = .valueError := by
  refine C6_infeasible_outcomes [2, 4] 3 (by decide) (by decide) ?_ ?_
  · intro c
    have h2 : 2 ∣ dotL c [2, 4] := dotL_dvd (by decide) c
    omega
  · intro l hl
    have h2 : 2 ∣ l.sum := List.dvd_sum (fun x hx => by
      have hx2 := hl x hx
      simp at hx2
      rcases hx2 with rfl | rfl
      · decide
      · decide)
    omega

/-- Counterexample to the original C6: for denominations [2, 4] and target
3, the strategies `change_cached` and `change_direct` end in a raised
`ValueError` (modelled `.valueError`), not in an explicit infeasible
outcome returned to the caller. -/
theorem C6_counterexample :
    change_cached [2, 4] 3 = .valueError ∧
      change_direct [2, 4] 3 = .valueError := by
  decide

/-- Claim C7 (corrected): for every coinCount ≥ 1 and n ≥ 1 the generator
used by `change_simplex` enumerates every weak composition of coinCount
into n non-negative parts exactly once, entries chosen left to right, each
ranging from 0 up to the remaining sum and the last entry forced to the
remaining sum; the resulting order is lexicographically increasing, so
LATER entries vary fastest — the original claim's "earlier entries vary
fastest" is refuted by `C7_counterexample`. -/
theorem C7_enumeration_order (coinCount n : Nat)
    (hc : 1 ≤ coinCount) (hn : 1 ≤ n) :
    (∀ c, c ∈ simplexPoints coinCount n ↔ c.length = n ∧ c.sum = coinCount) ∧
      (simplexPoints coinCount n).Nodup ∧
      (simplexPoints coinCount n).Pairwise (List.Lex (· < ·)) := by
  rw [simplexPoints_eq_comps]
  exact ⟨fun c => mem_comps hn, comps_nodup coinCount n,
    comps_pairwise_lex coinCount n⟩

/-- Closed instance of C7 at coinCount = 2, n = 3. -/
theorem C7_witness :
    (∀ c, c ∈ simplexPoints 2 3 ↔ c.length = 3 ∧ c.sum = 2) ∧
      (simplexPoints 2 3).Nodup ∧
      (simplexPoints 2 3).Pairwise (List.Lex (· < ·)) :=
  C7_enumeration_order 2 3 (by decide) (by decide)

/-- Counterexample to the original C7 order: in `simplexPoints 2 3` the
first entry changes strictly fewer times (2) between consecutive outputs
than the second entry (5), so earlier entries vary slowest, not fastest. -/
theorem C7_counterexample :
    entryChanges (simplexPoints 2 3) 0 < entryChanges (simplexPoints 2 3) 1 := by
  rw [simplexPoints_eq_comps]
  decide

/-- Claim C8 (corrected): at target 0, `change_cached` returns the empty
coin list and `change_direct` returns the all-zero count vector, but the
two simplex strategies return `None` (their `coinCount` loop over
`range(1, target // d[0] + 1)` is empty); the original claim fails for the
simplex strategies (see `C8_counterexample`). -/
theorem C8_target_zero (d : List Nat) (hne : d ≠ [])
    (hsorted : d.Pairwise (· < ·)) (hpos : ∀ x ∈ d, 1 ≤ x) :
    change_cached d 0 = .ok [] ∧
      (∃ ans, change_direct d 0 = .ok ans ∧ ans.length = d.length ∧
        ans.sum = 0) ∧
      change_simplex d 0 = none ∧ change_simplex_np d 0 = none := by
  refine ⟨rfl, ?_, ?_, ?_⟩
  · have hfeas : ∃ c, c.length = d.length ∧ dotL c d = 0 :=
      ⟨List.replicate d.length 0, by simp, dotL_zero_of_sum_zero (by simp)⟩
    obtain ⟨ans, h1, _, h3, _, h5⟩ := change_direct_spec d 0 hsorted hpos hfeas
    refine ⟨ans, h1, h3, ?_⟩
    have hle := h5 (List.replicate d.length 0) (by simp)
      (dotL_zero_of_sum_zero (by simp))
    have h0 : (List.replicate d.length (0 : Nat)).sum = 0 := by simp
    omega
  · rw [change_simplex, Nat.zero_div]
    rfl
  · rw [change_simplex_np, Nat.zero_div]
    rfl

/-- Closed instance of C8 at d = [1, 2]. -/
theorem C8_witness :
    change_cached [1, 2] 0 = .ok [] ∧
      (∃ ans, change_direct [1, 2] 0 = .ok ans ∧
        ans.length = ([1, 2] : List Nat).length ∧ ans.sum = 0) ∧
      change_simplex [1, 2] 0 = none ∧ change_simplex_np [1, 2] 0 = none :=
  C8_target_zero [1, 2] (by decide) (by decide) (by decide)

/-- Counterexample to the original C8: at target 0 both simplex strategies
return `None` rather than the all-zero composition. -/
theorem C8_counterexample :
    change_simplex [1] 0 = none ∧ change_simplex_np [1] 0 = none := by
  decide

/-- Claim C9 (corrected): for denominations (1, 5, 10, 25, 100) and target
189 the minimal coin count over all feasible compositions is 9, not 8:
`change_simplex` and `change_direct` both return the count vector
[4, 0, 1, 3, 1] with 4+0+1+3+1 = 9 coins, every count vector valued 189
uses at least 9 coins, and `change_cached` returns a list of 9 coin values
summing to 189. -/
theorem C9_scenario_189 :
    change_simplex [1, 5, 10, 25, 100] 189 = some [4, 0, 1, 3, 1] ∧
      change_direct [1, 5, 10, 25, 100] 189 = .ok [4, 0, 1, 3, 1] ∧
      List.sum [4, 0, 1, 3, 1] = 9 ∧
      (∀ c : List Nat, c.length = 5 → dotL c [1, 5, 10, 25, 100] = 189 →
        9 ≤ c.sum) ∧
      (∃ res, change_cached [1, 5, 10, 25, 100] 189 = .ok res ∧
        res.sum = 189 ∧ res.length = 9) := by
  have hmin : ∀ c : List Nat, c.length = 5 →
      dotL c [1, 5, 10, 25, 100] = 189 → 9 ≤ c.sum := by
    obtain ⟨ans, h1, _, _, h4⟩ := change_simplex_spec [1, 5, 10, 25, 100] 189
      (by decide) (by decide) (by decide) (by decide)
      ⟨[4, 0, 1, 3, 1], by decide, by decide⟩
    have hans : ans = [4, 0, 1, 3, 1] := by
      rw [change_simplex_189] at h1
      exact (Option.some_inj.mp h1).symm
    intro c hc1 hc2
    have hle := h4 c (by simpa using hc1) hc2
    rw [hans] at hle
    have h9 : List.sum [4, 0, 1, 3, 1] = 9 := by decide
    omega
  have hpos189 : ∀ x ∈ ([1, 5, 10, 25, 100] : List Nat), 1 ≤ x := by decide
  have hext : ∀ s < 189, ∃ x ∈ ([1, 5, 10, 25, 100] : List Nat),
      s + x ≤ 189 := by
    intro s hs
    exact ⟨1, by decide, by omega⟩
  obtain ⟨res, hres, _, hmem, hsum, hminm⟩ :=
    implP_ok hpos189 hext (189 + 1) [] (by simp)
      (by simp only [List.sum_nil]; omega) (by simp) List.sorted_nil
  have hmemd : ∀ x ∈ res, x ∈ ([1, 5, 10, 25, 100] : List Nat) := by
    intro x hx
    rcases hmem x hx with h | h
    · simp at h
    · exact h
  have hnd : ([1, 5, 10, 25, 100] : List Nat).Nodup := by decide
  have hlow : 9 ≤ res.length := by
    have h3 := toCounts_sum hnd res hmemd
    have hcb := hmin (toCounts [1, 5, 10, 25, 100] res)
      (by rw [toCounts_length]; rfl) (by rw [toCounts_dotL hnd res hmemd, hsum])
    omega
  have hup : res.length ≤ 9 := by
    have helems : ∀ x ∈ ([1, 1, 1, 1, 10, 25, 25, 25, 100] : List Nat),
        x ∈ ([1, 5, 10, 25, 100] : List Nat) := by decide
    have hcard := hminm (↑([1, 1, 1, 1, 10, 25, 25, 25, 100] : List Nat))
      (by intro x hx; exact helems x (by simpa using hx)) (by rfl)
    simpa using hcard
  refine ⟨change_simplex_189, change_direct_189, by decide, hmin,
    res, ?_, hsum, by omega⟩
  rw [change_cached_eq_implP hpos189, hres]

/-- Counterexample to the original C9: the answer `change_simplex` returns
for denominations (1, 5, 10, 25, 100) and target 189 uses 9 coins, not 8. -/
theorem C9_counterexample :
    change_simplex [1, 5, 10, 25, 100] 189 = some [4, 0, 1, 3, 1] ∧
      List.sum [4, 0, 1, 3, 1] ≠ 8 :=
  ⟨change_simplex_189, by decide⟩

/-- Claim C10: tie-break policy of `change_direct`: whenever it returns an
answer, the answer is a grid cell of the target value with minimal
coordinate sum among all exact matches of the grid, and it is
lexicographically least among the exact matches sharing that minimal sum
(the matches are scanned in row-major order and `min` keeps the first
element attaining the minimal sum). -/
theorem C10_direct_tiebreak {d : List Nat} {t : Nat} {ans : List Nat}
    (h : change_direct d t = .ok ans) :
    ans ∈ gridPoints (axesFor t d) ∧ dotL ans d = t ∧
      (∀ c ∈ gridPoints (axesFor t d), dotL c d = t → ans.sum ≤ c.sum) ∧
      (∀ c ∈ gridPoints (axesFor t d), dotL c d = t → c.sum = ans.sum →
        ans = c ∨ List.Lex (· < ·) ans c) :=
  change_direct_tiebreak h

/-- Closed instance of C10 at d = [1, 2], t = 2 (answer [0, 1]). -/
theorem C10_witness :
    [0, 1] ∈ gridPoints (axesFor 2 [1, 2]) ∧ dotL [0, 1] [1, 2] = 2 ∧
      (∀ c ∈ gridPoints (axesFor 2 [1, 2]), dotL c [1, 2] = 2 →
        List.sum [0, 1] ≤ c.sum) ∧
      (∀ c ∈ gridPoints (axesFor 2 [1, 2]), dotL c [1, 2] = 2 →
        c.sum = List.sum [0, 1] →
        [0, 1] = c ∨ List.Lex (· < ·) [0, 1] c) :=
  C10_direct_tiebreak (by decide)

end ChangeMaking
